import Mathlib

/-!
# Verification of the `archiver` container codec and CLI pipeline

This development embeds the directory-archiver program (`compress` /
`uncompress` commands) as Lean definitions and proves properties of the
container byte format it reads and writes.

Modelling conventions:
* A byte buffer (`Uint8Array` / Node `Buffer`) is a `List Nat`, each element a
  byte value.  `DataView` bounds are checked against the logical length of the
  buffer (a tight view over the decompressed bytes).
* JavaScript strings (paths, the JSON metadata text) are represented by their
  UTF-8 byte sequences, so `TextEncoder` / `TextDecoder` are identities.
* Machine integers are `Nat` with explicit `% 2 ^ 32` where `setUint32`
  truncates.
* The gzip compressor/decompressor is an external black box applied to a whole
  buffer; all properties here are about the container bytes on either side of
  it.
-/

/-- Little-endian 4-byte encoding, as produced by `DataView.setUint32(…, true)`:
the stored value is the argument reduced modulo `2 ^ 32`. -/
def u32le (n : Nat) : List Nat :=
  [n % 2 ^ 32 % 256, n % 2 ^ 32 / 256 % 256, n % 2 ^ 32 / 65536 % 256,
    n % 2 ^ 32 / 16777216 % 256]

/-- Little-endian 4-byte read, as performed by `DataView.getUint32(…, true)` on
the first four bytes of the buffer. -/
def readU32 (l : List Nat) : Nat :=
  l.getD 0 0 + 256 * l.getD 1 0 + 65536 * l.getD 2 0 + 16777216 * l.getD 3 0

/-- One file record inside the container: relative path (UTF-8 bytes) and raw
content bytes. -/
structure ArchEntry where
  path : List Nat
  content : List Nat
deriving DecidableEq, Repr

/-! ## JSON values and `JSON.parse`

`uncompressArchive` runs `JSON.parse` on the metadata slice and then only
checks that the result has a `files` property holding an array (taking its
length).  We model `JSON.parse` as a recursive-descent parser over the raw
bytes.  String escapes are resolved (`\uXXXX` to the UTF-8 bytes of the code
point), which is all the fidelity the program can observe: the only string
the decoder ever compares is the property name `files`. -/

inductive Json where
  | null : Json
  | bool (b : Bool) : Json
  | num : Json
  | str (s : List Nat) : Json
  | arr (xs : List Json) : Json
  | obj (kvs : List (List Nat × Json)) : Json

/-- JSON whitespace skipping (space, tab, LF, CR). -/
def skipWs : List Nat → List Nat
  | [] => []
  | b :: r => if b = 32 ∨ b = 9 ∨ b = 10 ∨ b = 13 then skipWs r else b :: r

def isDigit (b : Nat) : Bool := 48 ≤ b ∧ b ≤ 57

/-- Value of a hexadecimal digit byte, if any. -/
def hexVal (b : Nat) : Option Nat :=
  if 48 ≤ b ∧ b ≤ 57 then some (b - 48)
  else if 97 ≤ b ∧ b ≤ 102 then some (b - 87)
  else if 65 ≤ b ∧ b ≤ 70 then some (b - 55)
  else none

/-- UTF-8 encoding of a code point below `2 ^ 16` (the range reachable from a
single `\uXXXX` escape). -/
def utf8Enc (c : Nat) : List Nat :=
  if c < 128 then [c]
  else if c < 2048 then [192 + c / 64, 128 + c % 64]
  else [224 + c / 4096, 128 + c / 64 % 64, 128 + c % 64]

/-- Single-character JSON string escapes. -/
def escByte (e : Nat) : Option Nat :=
  if e = 34 then some 34
  else if e = 92 then some 92
  else if e = 47 then some 47
  else if e = 98 then some 8
  else if e = 102 then some 12
  else if e = 110 then some 10
  else if e = 114 then some 13
  else if e = 116 then some 9
  else none

/-- Parse the body of a JSON string literal (the opening quote already
consumed), returning the decoded bytes and the remaining input. -/
def parseStrBody : List Nat → Option (List Nat × List Nat)
  | [] => none
  | b :: r =>
    if b = 34 then some ([], r)
    else if b = 92 then
      match r with
      | [] => none
      | e :: r2 =>
        if e = 117 then
          match r2 with
          | h1 :: h2 :: h3 :: h4 :: r3 =>
            match hexVal h1, hexVal h2, hexVal h3, hexVal h4 with
            | some x1, some x2, some x3, some x4 =>
              match parseStrBody r3 with
              | some (s, rest) =>
                some (utf8Enc (4096 * x1 + 256 * x2 + 16 * x3 + x4) ++ s, rest)
              | none => none
            | _, _, _, _ => none
          | _ => none
        else
          match escByte e with
          | some c =>
            match parseStrBody r2 with
            | some (s, rest) => some (c :: s, rest)
            | none => none
          | none => none
    else if b < 32 then none
    else
      match parseStrBody r with
      | some (s, rest) => some (b :: s, rest)
      | none => none

/-- Consume a maximal run of decimal digits. -/
def takeDigits : List Nat → List Nat × List Nat
  | [] => ([], [])
  | b :: r =>
    if isDigit b then
      match takeDigits r with
      | (d, rest) => (b :: d, rest)
    else ([], b :: r)

/-- Optional fraction part of a JSON number. -/
def parseFrac : List Nat → Option (List Nat)
  | [] => some []
  | b :: r =>
    if b = 46 then
      match takeDigits r with
      | ([], _) => none
      | (_ :: _, rest) => some rest
    else some (b :: r)

/-- Optional exponent part of a JSON number. -/
def parseExp : List Nat → Option (List Nat)
  | [] => some []
  | b :: r =>
    if b = 101 ∨ b = 69 then
      let r2 := match r with
        | 43 :: r3 => r3
        | 45 :: r3 => r3
        | _ => r
      match takeDigits r2 with
      | ([], _) => none
      | (_ :: _, rest) => some rest
    else some (b :: r)

/-- Parse a JSON number token starting at the head of the input, returning the
remaining input (the numeric value is never used by the program). -/
def parseNum (l : List Nat) : Option (List Nat) :=
  let l1 := if l.headD 0 = 45 then l.tail else l
  match l1 with
  | [] => none
  | b :: r =>
    if b = 48 then
      match parseFrac r with
      | some r2 => parseExp r2
      | none => none
    else if isDigit b then
      match parseFrac (takeDigits r).2 with
      | some r2 => parseExp r2
      | none => none
    else none

mutual

/-- Recursive-descent JSON value parser with a fuel bound on recursion. -/
def parseValue : Nat → List Nat → Option (Json × List Nat)
  | 0, _ => none
  | fuel + 1, l =>
    match skipWs l with
    | [] => none
    | b :: r =>
      if b = 110 then
        match r with
        | 117 :: 108 :: 108 :: r2 => some (.null, r2)
        | _ => none
      else if b = 116 then
        match r with
        | 114 :: 117 :: 101 :: r2 => some (.bool true, r2)
        | _ => none
      else if b = 102 then
        match r with
        | 97 :: 108 :: 115 :: 101 :: r2 => some (.bool false, r2)
        | _ => none
      else if b = 34 then
        match parseStrBody r with
        | some (s, r2) => some (.str s, r2)
        | none => none
      else if b = 91 then
        match skipWs r with
        | 93 :: r2 => some (.arr [], r2)
        | r1 =>
          match parseItems fuel r1 with
          | some (xs, r2) => some (.arr xs, r2)
          | none => none
      else if b = 123 then
        match skipWs r with
        | 125 :: r2 => some (.obj [], r2)
        | r1 =>
          match parseMembers fuel r1 with
          | some (kvs, r2) => some (.obj kvs, r2)
          | none => none
      else if b = 45 ∨ isDigit b then
        match parseNum (b :: r) with
        | some r2 => some (.num, r2)
        | none => none
      else none

/-- Items of a non-empty JSON array, up to and including the closing `]`. -/
def parseItems : Nat → List Nat → Option (List Json × List Nat)
  | 0, _ => none
  | fuel + 1, l =>
    match parseValue fuel l with
    | none => none
    | some (v, r) =>
      match skipWs r with
      | 44 :: r2 =>
        match parseItems fuel r2 with
        | some (xs, r3) => some (v :: xs, r3)
        | none => none
      | 93 :: r2 => some ([v], r2)
      | _ => none

/-- Members of a non-empty JSON object, up to and including the closing
brace. -/
def parseMembers : Nat → List Nat → Option (List (List Nat × Json) × List Nat)
  | 0, _ => none
  | fuel + 1, l =>
    match skipWs l with
    | 34 :: r =>
      match parseStrBody r with
      | none => none
      | some (k, r1) =>
        match skipWs r1 with
        | 58 :: r2 =>
          match parseValue fuel r2 with
          | none => none
          | some (v, r3) =>
            match skipWs r3 with
            | 44 :: r4 =>
              match parseMembers fuel r4 with
              | some (kvs, r5) => some ((k, v) :: kvs, r5)
              | none => none
            | 125 :: r4 => some ([(k, v)], r4)
            | _ => none
        | _ => none
    | _ => none

end

/-- `JSON.parse`: parse a complete JSON text (whole input consumed). Two fuel
units per input byte always suffice, since every two recursion steps consume
at least one byte. -/
def jsonParse (l : List Nat) : Option Json :=
  match parseValue (2 * l.length + 2) l with
  | some (v, r) => if skipWs r = [] then some v else none
  | none => none

/-- Property lookup on a parsed JSON object: a duplicated key keeps the last
occurrence, as in JavaScript object construction. -/
def lookupLast (k : List Nat) : List (List Nat × Json) → Option Json
  | [] => none
  | (k', v) :: rest =>
    match lookupLast k rest with
    | some v' => some v'
    | none => if k' = k then some v else none

/-- The bytes of the property name `files`. -/
def filesKey : List Nat := [102, 105, 108, 101, 115]

/-- The only use `uncompressArchive` makes of the parsed metadata: the check
`!metadata.files || !Array.isArray(metadata.files)` followed by
`metadata.files.length`.  Returns `some length` when `files` is an array
(`[]` is truthy in JavaScript, so an empty array passes the check), `none`
otherwise.  A non-object top-level value (whose `.files` access yields
`undefined`, or throws on `null`) is also `none`: both paths abort the run. -/
def getFilesCount : Json → Option Nat
  | .obj kvs =>
    match lookupLast filesKey kvs with
    | some (.arr l) => some l.length
    | _ => none
  | _ => none

/-! ## `JSON.stringify` of the archive metadata

`compressDirectory` builds
`{version: '1.0', created: <timestamp>, files: [{path, size} …]}` and
serialises it with `JSON.stringify`.  The timestamp is a parameter here
(`new Date().toISOString()` is an external input).  The `files` list is in
the original enumeration order of the walked mapping, with `size` the content
byte length. -/

/-- `JSON.stringify` escaping of one string character (byte-level): quote and
backslash get two-character escapes, the named control characters get their
short escapes, other control bytes get `\u00xx` with lowercase hex, and
everything else is passed through. -/
def escapeJsonByte (b : Nat) : List Nat :=
  if b = 34 then [92, 34]
  else if b = 92 then [92, 92]
  else if b = 8 then [92, 98]
  else if b = 9 then [92, 116]
  else if b = 10 then [92, 110]
  else if b = 12 then [92, 102]
  else if b = 13 then [92, 114]
  else if b < 32 then
    [92, 117, 48, 48, if b / 16 < 10 then 48 + b / 16 else 87 + b / 16,
      if b % 16 < 10 then 48 + b % 16 else 87 + b % 16]
  else [b]

def escapeJsonString : List Nat → List Nat
  | [] => []
  | b :: r => escapeJsonByte b ++ escapeJsonString r

/-- A JSON string literal: quote, escaped content, quote. -/
def strLit (s : List Nat) : List Nat := 34 :: escapeJsonString s ++ [34]

/-- Decimal digit bytes of a natural number (fuel-structured so that it
reduces inside the kernel; `natDigits_eq` below recovers the obvious
recursion). -/
def natDigitsAux : Nat → Nat → List Nat
  | 0, _ => []
  | fuel + 1, n =>
    if n < 10 then [48 + n] else natDigitsAux fuel (n / 10) ++ [48 + n % 10]

def natDigits (n : Nat) : List Nat := natDigitsAux (n + 1) n

/-- `{"version":"1.0","created":` — the fixed head of the metadata object,
with the escaped timestamp string following. -/
def metaHead : List Nat :=
  [123, 34, 118, 101, 114, 115, 105, 111, 110, 34, 58, 34, 49, 46, 48, 34,
    44, 34, 99, 114, 101, 97, 116, 101, 100, 34, 58]

/-- `,"files":[` — introduces the file-descriptor array. -/
def metaFilesIntro : List Nat := [44, 34, 102, 105, 108, 101, 115, 34, 58, 91]

/-- `{"path":` — head of one file descriptor. -/
def fdescHead : List Nat := [123, 34, 112, 97, 116, 104, 34, 58]

/-- `,"size":` — between the path and the size of one file descriptor. -/
def fdescSize : List Nat := [44, 34, 115, 105, 122, 101, 34, 58]

/-- `JSON.stringify({path: e.path, size: e.content.length})`. -/
def fileDescJson (e : ArchEntry) : List Nat :=
  fdescHead ++ strLit e.path ++ fdescSize ++ natDigits e.content.length ++ [125]

/-- The file descriptors joined with commas. -/
def fileDescsJson : List ArchEntry → List Nat
  | [] => []
  | e :: rest =>
    fileDescJson e ++ (if rest = [] then [] else 44 :: fileDescsJson rest)

/-- The serialised `ContainerMetadata`: exactly the bytes of
`JSON.stringify({version:'1.0', created, files})`, `files` in enumeration
order. -/
def metaJsonBytes (created : List Nat) (files : List ArchEntry) : List Nat :=
  metaHead ++ strLit created ++ metaFilesIntro ++ fileDescsJson files ++ [93, 125]

/-! ## Sorting the physical entries

`compressDirectory` iterates `Object.keys(files).sort()` — the entry stream is
in ascending path order while the metadata keeps enumeration order.  We model
the string sort as insertion sort by lexicographic byte order (strings with
distinct keys have a unique sorted arrangement under any total order, which is
what the determinism and round-trip claims consume). -/

def lexLe : List Nat → List Nat → Bool
  | [], _ => true
  | _ :: _, [] => false
  | a :: as, b :: bs => if a < b then true else if b < a then false else lexLe as bs

def insertSorted (e : ArchEntry) : List ArchEntry → List ArchEntry
  | [] => [e]
  | x :: xs => if lexLe e.path x.path then e :: x :: xs else x :: insertSorted e xs

def sortEntries : List ArchEntry → List ArchEntry
  | [] => []
  | e :: es => insertSorted e (sortEntries es)

/-! ## The container encoder

Lines 159–217 of `compressDirectory`: metadata-length header, metadata JSON,
then for each entry (in sorted path order) an 8-byte header — path length and
content length, each `setUint32`-truncated — followed by path and content
bytes. -/

/-- One physical entry block. -/
def entryBytes (e : ArchEntry) : List Nat :=
  u32le e.path.length ++ u32le e.content.length ++ e.path ++ e.content

/-- The concatenated entry stream. -/
def entriesBlob : List ArchEntry → List Nat
  | [] => []
  | e :: es => entryBytes e ++ entriesBlob es

/-- The full container buffer produced by `compressDirectory` before gzip:
`[4-byte metadata length][metadata JSON][entry stream sorted by path]`. -/
def compressEncode (created : List Nat) (files : List ArchEntry) : List Nat :=
  let meta := metaJsonBytes created files
  u32le meta.length ++ meta ++ entriesBlob (sortEntries files)

/-! ## The container decoder

Lines 271–327 of `uncompressArchive`.  The entry loop runs while
`offset < decompressed.length`; reading an 8-byte header past the end of the
buffer throws (`DataView` bounds), while `subarray` silently clamps path and
content reads to the available bytes, and `offset` is advanced by the
*declared* lengths regardless. -/

/-- The entry-extraction loop.  Returns the entries read and `true`, or the
entries read before an out-of-bounds header read and `false`.  Fuel-structured
(one unit per entry; each entry consumes at least 8 bytes). -/
def extractEntriesF : Nat → List Nat → List ArchEntry × Bool
  | 0, _ => ([], false)
  | fuel + 1, buf =>
    if buf = [] then ([], true)
    else if buf.length < 8 then ([], false)
    else
      let pathLen := readU32 buf
      let contentLen := readU32 (buf.drop 4)
      let rest := buf.drop 8
      let path := rest.take pathLen
      let rest2 := rest.drop pathLen
      let content := rest2.take contentLen
      let rest3 := rest2.drop contentLen
      match extractEntriesF fuel rest3 with
      | (es, ok) => (⟨path, content⟩ :: es, ok)

def extractEntries (buf : List Nat) : List ArchEntry × Bool :=
  extractEntriesF (buf.length + 1) buf

/-- Failure modes of `uncompressArchive` (each is a caught exception or an
explicit `process.exit(1)` in the source):
* `notAFile` — the `stat`/`isFile` check;
* `truncatedHeader` — the 4-byte metadata-length `DataView` is out of bounds;
* `corruptMetadata` — `JSON.parse` throws on the metadata slice;
* `invalidFormat` — parsed metadata has no array-valued `files` property
  (including a non-object top level, whose property access yields `undefined`
  or throws);
* `emptyArchive` — `metadata.files.length === 0`;
* `truncatedEntryHeader` — an 8-byte entry-header `DataView` is out of
  bounds. -/
inductive UErr where
  | notAFile : UErr
  | truncatedHeader : UErr
  | corruptMetadata : UErr
  | invalidFormat : UErr
  | emptyArchive : UErr
  | truncatedEntryHeader : UErr
deriving DecidableEq, Repr

/-- The pure decoding core of `uncompressArchive`: metadata length, metadata
parse and `files` checks, then the extraction loop.  On success returns the
metadata file count (which is what the program reports) and the entries
physically extracted. -/
def uncompressDecode (buf : List Nat) : Except UErr (Nat × List ArchEntry) :=
  if buf.length < 4 then .error .truncatedHeader
  else
    let metaLen := readU32 buf
    let metaBytes := (buf.drop 4).take metaLen
    match jsonParse metaBytes with
    | none => .error .corruptMetadata
    | some j =>
      match getFilesCount j with
      | none => .error .invalidFormat
      | some k =>
        if k = 0 then .error .emptyArchive
        else
          match extractEntries (buf.drop (4 + metaLen)) with
          | (es, true) => .ok (k, es)
          | (_, false) => .error .truncatedEntryHeader

/-! ## POSIX path resolution

`uncompressArchive` computes `join(outputDir, path)` and
`dirname(fullPath)` with Node's `path` module (forward-slash semantics).
`join` concatenates its arguments with `/` and then normalises, resolving `.`
and `..` segments — it performs no containment check, which is what the
path-traversal claim is about. -/

/-- Split a byte string on `/` (byte 47).  Always returns at least one
segment. -/
def splitSegs : List Nat → List (List Nat)
  | [] => [[]]
  | b :: r =>
    match splitSegs r with
    | [] => [[b]]
    | s :: rest => if b = 47 then [] :: s :: rest else (b :: s) :: rest

/-- Join segments with `/`. -/
def joinSegs : List (List Nat) → List Nat
  | [] => []
  | [s] => s
  | s :: rest => s ++ 47 :: joinSegs rest

/-- Segment normalisation: drop empty and `.` segments, resolve `..` against
the segment stack; `allowUp` (set for relative paths) keeps unmatched `..`
segments, while an absolute path drops them at the root. -/
def normSegsGo (allowUp : Bool) (stack : List (List Nat)) :
    List (List Nat) → List (List Nat)
  | [] => stack.reverse
  | s :: rest =>
    if s = [] ∨ s = [46] then normSegsGo allowUp stack rest
    else if s = [46, 46] then
      match stack with
      | t :: st =>
        if t = [46, 46] then normSegsGo allowUp ([46, 46] :: t :: st) rest
        else normSegsGo allowUp st rest
      | [] =>
        if allowUp then normSegsGo allowUp [[46, 46]] rest
        else normSegsGo allowUp [] rest
    else normSegsGo allowUp (s :: stack) rest

def normSegs (allowUp : Bool) (segs : List (List Nat)) : List (List Nat) :=
  normSegsGo allowUp [] segs

/-- `path.posix.normalize` (trailing-slash preservation omitted: the archive
entries the claims quantify over have no trailing separators). -/
def normalizePath (p : List Nat) : List Nat :=
  if p = [] then [46]
  else
    let isAbs := p.head? = some 47
    let segs := normSegs (!isAbs) (splitSegs p)
    if segs = [] then (if isAbs then [47] else [46])
    else if isAbs then 47 :: joinSegs segs
    else joinSegs segs

/-- `path.posix.join` of two parts: empty parts are skipped, the rest joined
with `/` and normalised. -/
def joinPath (a b : List Nat) : List Nat :=
  if a = [] ∧ b = [] then [46]
  else if a = [] then normalizePath b
  else if b = [] then normalizePath a
  else normalizePath (a ++ 47 :: b)

/-- `path.posix.dirname` of an already-normalised path. -/
def dirname (p : List Nat) : List Nat :=
  match (splitSegs p).dropLast with
  | [] => [46]
  | [[]] => [47]
  | segs => joinSegs segs

/-- `startsWithB pre l` : `pre` is an initial run of `l`. -/
def startsWithB : List Nat → List Nat → Bool
  | [], _ => true
  | _ :: _, [] => false
  | a :: as, b :: bs => a = b && startsWithB as bs

/-- `p` is the directory `base` itself or lies strictly underneath it. -/
def underOrEq (base p : List Nat) : Bool :=
  p = base || startsWithB (base ++ [47]) p

/-! ## Filesystem side effects

The observable writes of the two commands, in program order.  `ensureDir p`
stands for `ensureDirectoryExists(p)`: an `existsSync` check followed by
`mkdirSync(p, {recursive: true})` when absent — it creates `p` (and missing
parents) exactly when `p` did not exist.  `writeFile` is `writeFileSync`
(creating or overwriting the file at that path). -/

inductive FsEvent where
  | ensureDir (p : List Nat) : FsEvent
  | writeFile (p : List Nat) (content : List Nat) : FsEvent
deriving DecidableEq, Repr

/-- The per-entry effects of the extraction loop: for each entry, ensure the
parent directory of `join(outputDir, path)` exists, then write the file. -/
def extractWrites (outDir : List Nat) : List ArchEntry → List FsEvent
  | [] => []
  | e :: es =>
    .ensureDir (dirname (joinPath outDir e.path)) ::
      .writeFile (joinPath outDir e.path) e.content :: extractWrites outDir es

/-- Errors of `compressDirectory`:
* `notADirectory` — the `stat`/`isDirectory` check;
* `emptyDirectory` — the walk found no files. -/
inductive CErr where
  | notADirectory : CErr
  | emptyDirectory : CErr
deriving DecidableEq, Repr

/-- `compressDirectory`, effect-level: validation first, a single archive
write at the end.  `isDir` is the `stat` outcome for the input path and
`walk` the mapping produced by `readFilesRecursively` (in enumeration order).
The bytes actually written are the gzip (external black box) of the container;
the event records the container bytes. -/
def compressDirectory (isDir : Bool) (walk : List ArchEntry)
    (outFile created : List Nat) : Except CErr Unit × List FsEvent :=
  if !isDir then (.error .notADirectory, [])
  else if walk = [] then (.error .emptyDirectory, [])
  else (.ok (), [.writeFile outFile (compressEncode created walk)])

/-- `uncompressArchive`, effect-level.  `isFile` is the `stat` outcome for the
archive path, `outDirExists` the `existsSync` outcome for the output
directory, and `buf` the gunzipped archive bytes (gunzip itself is the
external black box; its own failure would also occur after the `ensureDir`).
On success the result carries the *reported* file count
(`metadata.files.length`) and the total extracted size. -/
def uncompressArchive (isFile outDirExists : Bool) (outDir buf : List Nat) :
    Except UErr (Nat × Nat) × List FsEvent :=
  if !isFile then (.error .notAFile, [])
  else
    let pre : List FsEvent := if outDirExists then [] else [.ensureDir outDir]
    if buf.length < 4 then (.error .truncatedHeader, pre)
    else
      let metaLen := readU32 buf
      let metaBytes := (buf.drop 4).take metaLen
      match jsonParse metaBytes with
      | none => (.error .corruptMetadata, pre)
      | some j =>
        match getFilesCount j with
        | none => (.error .invalidFormat, pre)
        | some k =>
          if k = 0 then (.error .emptyArchive, pre)
          else
            match extractEntries (buf.drop (4 + metaLen)) with
            | (es, ok) =>
              let evs := pre ++ extractWrites outDir es
              if ok then
                (.ok (k, (es.map (fun e => e.content.length)).sum), evs)
              else (.error .truncatedEntryHeader, evs)

/-- Count of files written during a run. -/
def writeCount : List FsEvent → Nat
  | [] => 0
  | .writeFile _ _ :: r => writeCount r + 1
  | .ensureDir _ :: r => writeCount r

/-! ## Compression-level parsing

Lines 35–38: `parseInt(arg.split('=')[1]) || 9`.  We model `parseInt`
(whitespace and sign handling, optional `0x` hex prefix, maximal digit run,
`NaN` when no digits) and the `||` fallback, which replaces `NaN` and `0` by
the default 9 and passes every other parsed integer through unchanged. -/

def digitsVal : List Nat → Nat → Nat
  | [], acc => acc
  | d :: r, acc => digitsVal r (acc * 10 + (d - 48))

def takeHexDigits : List Nat → List Nat × List Nat
  | [] => ([], [])
  | b :: r =>
    if (hexVal b).isSome then
      match takeHexDigits r with
      | (d, rest) => (b :: d, rest)
    else ([], b :: r)

def hexDigitsVal : List Nat → Nat → Nat
  | [], acc => acc
  | d :: r, acc => hexDigitsVal r (acc * 16 + (hexVal d).getD 0)

/-- JavaScript `parseInt` with radix auto-detection; `none` is `NaN`. -/
def parseIntJs (s : List Nat) : Option Int :=
  let s1 := skipWs s
  let signed : Int × List Nat := match s1 with
    | 43 :: r => (1, r)
    | 45 :: r => (-1, r)
    | _ => (1, s1)
  match signed with
  | (sign, s2) =>
    match s2 with
    | 48 :: x :: r =>
      if x = 120 ∨ x = 88 then
        match takeHexDigits r with
        | ([], _) => none
        | (ds, _) => some (sign * hexDigitsVal ds 0)
      else
        match takeDigits (48 :: x :: r) with
        | ([], _) => none
        | (ds, _) => some (sign * digitsVal ds 0)
    | _ =>
      match takeDigits s2 with
      | ([], _) => none
      | (ds, _) => some (sign * digitsVal ds 0)

/-- `arg.split('=')[1]`: the text between the first `=` and the following `=`
or end of string; `none` when the flag has no `=`. -/
def afterFirstEq : List Nat → Option (List Nat)
  | [] => none
  | 61 :: r => some (r.takeWhile (fun b => b ≠ 61))
  | _ :: r => afterFirstEq r

/-- The compression level used by `compressDirectory`: 9 when no level flag is
given, when the parsed value is `NaN` (`parseInt` failed, including a missing
`=` part), or when it is 0; otherwise the parsed integer itself. -/
def levelOf (flag : Option (List Nat)) : Int :=
  match flag with
  | none => 9
  | some f =>
    match afterFirstEq f with
    | none => 9
    | some s =>
      match parseIntJs s with
      | none => 9
      | some n => if n = 0 then 9 else n

/-! ## Helper notions used by the claim statements -/

/-- The property-name byte strings of the metadata object. -/
def versionKey : List Nat := [118, 101, 114, 115, 105, 111, 110]

def createdKey : List Nat := [99, 114, 101, 97, 116, 101, 100]

def pathKey : List Nat := [112, 97, 116, 104]

def sizeKey : List Nat := [115, 105, 122, 101]

/-- The JSON value `JSON.parse` recovers from one serialised file
descriptor. -/
def fileDescValue (e : ArchEntry) : Json :=
  .obj [(pathKey, .str e.path), (sizeKey, .num)]

/-- The JSON value `JSON.parse` recovers from the serialised metadata. -/
def metaValue (created : List Nat) (files : List ArchEntry) : Json :=
  .obj [(versionKey, .str [49, 46, 48]), (createdKey, .str created),
    (filesKey, .arr (files.map fileDescValue))]

/-- A path segment that is not empty, `.` or `..`. -/
def goodSeg (s : List Nat) : Bool :=
  !(s = [] || s = [46] || s = [46, 46])

/-- A safe relative path: non-empty, and every `/`-separated segment is a real
name (in particular no leading `/`, no `..`, no `.`, no empty segment). -/
def goodRelPath (p : List Nat) : Bool :=
  !(p = []) && (splitSegs p).all goodSeg

/-- Ordering of entries by path, as imposed by `Object.keys(files).sort()`. -/
def pathLe (a b : ArchEntry) : Prop := lexLe a.path b.path = true

/-- The target path of a filesystem event (the directory created, or the file
written). -/
def eventPath : FsEvent → List Nat
  | .ensureDir p => p
  | .writeFile p _ => p

/-! # Theorems -/

theorem u32le_length (n : Nat) : (u32le n).length = 4 := rfl

theorem readU32_u32le_append (n : Nat) (r : List Nat) :
    readU32 (u32le n ++ r) = n % 2 ^ 32 := by
  simp only [u32le, readU32, List.cons_append, List.getD_cons_zero,
    List.getD_cons_succ]
  omega

theorem readU32_u32le_append_eq (n : Nat) (r : List Nat) (h : n < 2 ^ 32) :
    readU32 (u32le n ++ r) = n := by
  rw [readU32_u32le_append, Nat.mod_eq_of_lt h]

theorem natDigitsAux_fuel {f g n : Nat} (hf : n < f) (hg : n < g) :
    natDigitsAux f n = natDigitsAux g n := by
  induction f generalizing g n with
  | zero => omega
  | succ f ih =>
    cases g with
    | zero => omega
    | succ g =>
      simp only [natDigitsAux]
      by_cases h : n < 10
      · simp [h]
      · have hd : n / 10 < n := Nat.div_lt_self (by omega) (by omega)
        simp only [if_neg h]
        rw [ih (by omega) (g := g) (by omega)]

theorem natDigits_eq (n : Nat) :
    natDigits n = if n < 10 then [48 + n] else natDigits (n / 10) ++ [48 + n % 10] := by
  by_cases h : n < 10
  · simp [natDigits, natDigitsAux, h]
  · have hd : n / 10 < n := Nat.div_lt_self (by omega) (by omega)
    rw [if_neg h]
    show natDigitsAux (n + 1) n = natDigits (n / 10) ++ [48 + n % 10]
    conv_lhs => rw [natDigitsAux]
    rw [if_neg h]
    congr 1
    exact natDigitsAux_fuel (by omega) (by omega)

/-! ## The extraction loop on well-formed streams -/

theorem extractEntriesF_congr {f : Nat} : ∀ {g : Nat} {buf : List Nat},
    buf.length < f → buf.length < g → extractEntriesF f buf = extractEntriesF g buf := by
  induction f with
  | zero => intro g buf h _; omega
  | succ f ih =>
    intro g buf hf hg
    cases g with
    | zero => omega
    | succ g =>
      simp only [extractEntriesF]
      by_cases hb : buf = []
      · simp [hb]
      · simp only [if_neg hb]
        by_cases hl : buf.length < 8
        · simp [hl]
        · simp only [if_neg hl]
          rw [ih (g := g) (by simp [List.length_drop]; omega)
            (by simp [List.length_drop]; omega)]

theorem extractEntries_nil : extractEntries [] = ([], true) := rfl

theorem extractEntries_step (buf : List Nat) (h8 : 8 ≤ buf.length) :
    extractEntries buf =
      ((⟨(buf.drop 8).take (readU32 buf),
          ((buf.drop 8).drop (readU32 buf)).take (readU32 (buf.drop 4))⟩ : ArchEntry) ::
          (extractEntries (((buf.drop 8).drop (readU32 buf)).drop
            (readU32 (buf.drop 4)))).1,
        (extractEntries (((buf.drop 8).drop (readU32 buf)).drop
          (readU32 (buf.drop 4)))).2) := by
  have hb : buf ≠ [] := by
    intro h
    rw [h] at h8
    simp at h8
  show extractEntriesF (buf.length + 1) buf = _
  simp only [extractEntriesF, if_neg hb, if_neg (by omega : ¬ buf.length < 8)]
  rw [extractEntriesF_congr (g :=
      ((((buf.drop 8).drop (readU32 buf)).drop (readU32 (buf.drop 4))).length + 1))
    (by simp [List.length_drop]; omega) (by omega)]
  rcases hE : extractEntries (((buf.drop 8).drop (readU32 buf)).drop
      (readU32 (buf.drop 4))) with ⟨es, ok⟩
  rw [show extractEntriesF (((((buf.drop 8).drop (readU32 buf)).drop
      (readU32 (buf.drop 4))).length + 1))
      (((buf.drop 8).drop (readU32 buf)).drop (readU32 (buf.drop 4))) =
      extractEntries (((buf.drop 8).drop (readU32 buf)).drop
        (readU32 (buf.drop 4))) from rfl, hE]

theorem entryBytes_assoc (e : ArchEntry) (rest : List Nat) :
    entryBytes e ++ rest =
      u32le e.path.length ++ (u32le e.content.length ++ (e.path ++ (e.content ++ rest))) := by
  simp [entryBytes, List.append_assoc]

theorem extractEntries_block (e : ArchEntry) (rest : List Nat)
    (hp : e.path.length < 2 ^ 32) (hc : e.content.length < 2 ^ 32) :
    extractEntries (entryBytes e ++ rest) =
      (e :: (extractEntries rest).1, (extractEntries rest).2) := by
  have h8 : 8 ≤ (entryBytes e ++ rest).length := by
    simp [entryBytes, u32le]
  have hr4 : (entryBytes e ++ rest).drop 4 =
      u32le e.content.length ++ (e.path ++ (e.content ++ rest)) := by
    rw [entryBytes_assoc, show (4 : Nat) = (u32le e.path.length).length from rfl,
      List.drop_left]
  have hr8 : (entryBytes e ++ rest).drop 8 = e.path ++ (e.content ++ rest) := by
    rw [entryBytes_assoc, ← List.append_assoc,
      show (8 : Nat) = (u32le e.path.length ++ u32le e.content.length).length from rfl,
      List.drop_left]
  have hru : readU32 (entryBytes e ++ rest) = e.path.length := by
    rw [entryBytes_assoc, readU32_u32le_append_eq _ _ hp]
  have hrc : readU32 ((entryBytes e ++ rest).drop 4) = e.content.length := by
    rw [hr4, readU32_u32le_append_eq _ _ hc]
  rw [extractEntries_step _ h8, hru, hrc, hr8, List.take_left, List.drop_left,
    List.take_left, List.drop_left]

theorem extractEntries_blob (es : List ArchEntry)
    (h : ∀ e ∈ es, e.path.length < 2 ^ 32 ∧ e.content.length < 2 ^ 32) :
    extractEntries (entriesBlob es) = (es, true) := by
  induction es with
  | nil => rfl
  | cons e es ih =>
    rw [entriesBlob, extractEntries_block e _ (h e (by simp)).1 (h e (by simp)).2,
      ih (fun x hx => h x (by simp [hx]))]

/-! ## Decoding a buffer assembled from its three parts -/

theorem uncompressDecode_parts (meta stream : List Nat) (hm : meta.length < 2 ^ 32) :
    uncompressDecode (u32le meta.length ++ meta ++ stream) =
      match jsonParse meta with
      | none => .error .corruptMetadata
      | some j =>
        match getFilesCount j with
        | none => .error .invalidFormat
        | some k =>
          if k = 0 then .error .emptyArchive
          else
            match extractEntries stream with
            | (es, true) => .ok (k, es)
            | (_, false) => .error .truncatedEntryHeader := by
  have hlen : ¬ (u32le meta.length ++ meta ++ stream).length < 4 := by
    simp [u32le]
  have hru : readU32 (u32le meta.length ++ meta ++ stream) = meta.length := by
    rw [List.append_assoc, readU32_u32le_append_eq _ _ hm]
  have hd4 : (u32le meta.length ++ meta ++ stream).drop 4 = meta ++ stream := by
    rw [List.append_assoc, show (4 : Nat) = (u32le meta.length).length from rfl,
      List.drop_left]
  have hds : (u32le meta.length ++ meta ++ stream).drop (4 + meta.length) = stream := by
    rw [show 4 + meta.length = (u32le meta.length ++ meta).length by
      rw [List.length_append, u32le_length], List.drop_left]
  unfold uncompressDecode
  rw [if_neg hlen]
  simp only [hru, hd4, hds, List.take_left]

theorem uncompressDecode_encode (created : List Nat) (files : List ArchEntry)
    (hm : (metaJsonBytes created files).length < 2 ^ 32) :
    uncompressDecode (compressEncode created files) =
      match jsonParse (metaJsonBytes created files) with
      | none => .error .corruptMetadata
      | some j =>
        match getFilesCount j with
        | none => .error .invalidFormat
        | some k =>
          if k = 0 then .error .emptyArchive
          else
            match extractEntries (entriesBlob (sortEntries files)) with
            | (es, true) => .ok (k, es)
            | (_, false) => .error .truncatedEntryHeader := by
  rw [show compressEncode created files =
      u32le (metaJsonBytes created files).length ++ metaJsonBytes created files ++
        entriesBlob (sortEntries files) from rfl,
    uncompressDecode_parts _ _ hm]

/-! ## Claim C2 — truncation detection -/

/-- C2, counterexample: the claim says decoding any truncation of a valid
container strictly before its final byte fails.  In the code, `subarray`
clamps a declared content length to the remaining bytes and the loop then
exits, so dropping the final content byte of a valid two-byte-content
container decodes *successfully*, returning the clamped one-byte content. -/
theorem C2_truncation_counterexample :
    uncompressDecode (compressEncode [] [⟨[97], [104, 105]⟩]) =
        .ok (1, [⟨[97], [104, 105]⟩]) ∧
      uncompressDecode ((compressEncode [] [⟨[97], [104, 105]⟩]).dropLast) =
        .ok (1, [⟨[97], [104]⟩]) :=
  ⟨rfl, rfl⟩

/-- C2 (amended): truncating a container inside the initial 4-byte
metadata-length field always fails (the `DataView` constructor is out of
bounds), but a truncation strictly before the final byte need not fail:
a declared content length exceeding the remaining bytes is clamped by
`subarray`, so truncating the final content byte of a valid container
yields a success result carrying the clamped content. -/
theorem C2_truncation_amended :
    (∀ (buf : List Nat) (cut : Nat), cut < 4 →
        uncompressDecode (buf.take cut) = .error .truncatedHeader) ∧
      uncompressDecode ((compressEncode [] [⟨[97], [104, 105]⟩]).dropLast) =
        .ok (1, [⟨[97], [104]⟩]) := by
  refine ⟨?_, rfl⟩
  intro buf cut hcut
  have h : (buf.take cut).length < 4 := by
    simp only [List.length_take]
    omega
  unfold uncompressDecode
  rw [if_pos h]

/-- Witness for `C2_truncation_amended` at a concrete truncation point. -/
theorem C2_truncation_amended_witness :
    uncompressDecode ([1, 2, 3, 4, 5].take 2) = .error .truncatedHeader :=
  C2_truncation_amended.1 [1, 2, 3, 4, 5] 2 (by decide)

/-! ## Claim C6 — the empty-archive check -/

/-- C6, counterexample: the claim says `EmptyArchiveError` occurs iff the
*physical* entry stream is empty.  The code tests `metadata.files.length`
instead: a container whose metadata claims one file but whose entry stream is
empty decodes successfully with zero entries, and a container whose metadata
claims zero files but which carries one physical entry fails with the
empty-archive error. -/
theorem C6_emptyArchive_counterexample :
    uncompressDecode (u32le 13 ++
        [123, 34, 102, 105, 108, 101, 115, 34, 58, 91, 48, 93, 125]) = .ok (1, []) ∧
      uncompressDecode (u32le 12 ++
        [123, 34, 102, 105, 108, 101, 115, 34, 58, 91, 93, 125] ++
        [1, 0, 0, 0, 0, 0, 0, 0, 97]) = .error .emptyArchive :=
  ⟨rfl, rfl⟩

/-- C6 (amended): `uncompressArchive` fails with the empty-archive error iff
the **metadata** `files` list — not the physical entry stream — has length
zero (given that the metadata slice parses as JSON with an array-valued
`files` property). -/
theorem C6_emptyArchive_amended (buf : List Nat) (j : Json) (k : Nat)
    (h4 : 4 ≤ buf.length)
    (hparse : jsonParse ((buf.drop 4).take (readU32 buf)) = some j)
    (hcount : getFilesCount j = some k) :
    uncompressDecode buf = .error .emptyArchive ↔ k = 0 := by
  unfold uncompressDecode
  rw [if_neg (by omega)]
  simp only [hparse, hcount]
  by_cases hk : k = 0
  · simp [hk]
  · rw [if_neg hk]
    constructor
    · intro h
      rcases hE : extractEntries (buf.drop (4 + readU32 buf)) with ⟨es, ok⟩
      rw [hE] at h
      cases ok <;> simp at h
    · intro h
      exact absurd h hk

/-- Witness for `C6_emptyArchive_amended` on a concrete container. -/
theorem C6_emptyArchive_amended_witness :
    uncompressDecode (u32le 12 ++
        [123, 34, 102, 105, 108, 101, 115, 34, 58, 91, 93, 125]) =
      .error .emptyArchive ↔ (0 : Nat) = 0 :=
  C6_emptyArchive_amended _ (.obj [([102, 105, 108, 101, 115], .arr [])]) 0
    (by decide) rfl rfl

/-! ## Claim C7 — 32-bit length fields -/

/-- C7, counterexample: the claim says encode fails with an oversize error
when a length exceeds `2 ^ 32 − 1` and that no length field is written
reduced modulo `2 ^ 32`.  The code has no such check: `setUint32` wraps, so
the path-length field of an entry whose path has `2 ^ 32` bytes is written as
0, not `2 ^ 32`. -/
theorem C7_oversize_counterexample :
    readU32 (entryBytes ⟨List.replicate (2 ^ 32) 97, []⟩) = 0 ∧
      (List.replicate (2 ^ 32) (97 : Nat)).length = 2 ^ 32 ∧
      (0 : Nat) ≠ 2 ^ 32 := by
  refine ⟨?_, List.length_replicate _ _, by norm_num⟩
  simp only [entryBytes, List.append_assoc]
  rw [List.length_replicate, readU32_u32le_append]
  norm_num

/-- C7 (amended): encode never fails on oversize entries — both length fields
of an entry are written reduced modulo `2 ^ 32`, and therefore equal the
exact byte counts precisely when those counts are below `2 ^ 32`. -/
theorem C7_oversize_amended (e : ArchEntry) :
    readU32 (entryBytes e) = e.path.length % 2 ^ 32 ∧
      readU32 ((entryBytes e).drop 4) = e.content.length % 2 ^ 32 ∧
      (e.path.length < 2 ^ 32 → readU32 (entryBytes e) = e.path.length) ∧
      (e.content.length < 2 ^ 32 →
        readU32 ((entryBytes e).drop 4) = e.content.length) := by
  have h1 : readU32 (entryBytes e) = e.path.length % 2 ^ 32 := by
    rw [entryBytes, List.append_assoc, List.append_assoc, readU32_u32le_append]
  have h2 : readU32 ((entryBytes e).drop 4) = e.content.length % 2 ^ 32 := by
    rw [entryBytes, List.append_assoc, List.append_assoc,
      show (4 : Nat) = (u32le e.path.length).length from rfl, List.drop_left,
      readU32_u32le_append]
  exact ⟨h1, h2, fun h => by rw [h1, Nat.mod_eq_of_lt h],
    fun h => by rw [h2, Nat.mod_eq_of_lt h]⟩

/-- Witness for `C7_oversize_amended` on a small entry. -/
theorem C7_oversize_amended_witness :
    readU32 (entryBytes ⟨[97], [104]⟩) = 1 :=
  (C7_oversize_amended ⟨[97], [104]⟩).2.2.1 (by decide)

/-! ## Claim C8 — compression-level fallback -/

/-- C8, counterexample: the claim says every out-of-range level argument
falls back to the default 9.  The code computes `parseInt(…) || 9`, which
only replaces `NaN` and 0: the flag `--level=15` yields level 15, which is
passed to the compressor unchanged (and is not 9). -/
theorem C8_level_counterexample :
    levelOf (some [45, 45, 108, 101, 118, 101, 108, 61, 49, 53]) = 15 ∧
      ¬ (1 ≤ (15 : Int) ∧ (15 : Int) ≤ 9) ∧ (15 : Int) ≠ 9 := by
  refine ⟨rfl, by decide, by decide⟩

/-- C8 (amended): the level is 9 exactly when no level flag is present, the
flag has no `=` payload, `parseInt` yields `NaN`, or the parsed integer is 0;
every other parsed integer — in range or not — is used as the level
unchanged. -/
theorem C8_level_amended :
    levelOf none = 9 ∧
      (∀ f : List Nat, afterFirstEq f = none → levelOf (some f) = 9) ∧
      (∀ f s : List Nat, afterFirstEq f = some s → parseIntJs s = none →
        levelOf (some f) = 9) ∧
      (∀ f s : List Nat, afterFirstEq f = some s → parseIntJs s = some 0 →
        levelOf (some f) = 9) ∧
      (∀ (f s : List Nat) (n : Int), afterFirstEq f = some s →
        parseIntJs s = some n → n ≠ 0 → levelOf (some f) = n) := by
  refine ⟨rfl, ?_, ?_, ?_, ?_⟩
  · intro f h
    simp [levelOf, h]
  · intro f s h1 h2
    simp [levelOf, h1, h2]
  · intro f s h1 h2
    simp [levelOf, h1, h2]
  · intro f s n h1 h2 h3
    simp [levelOf, h1, h2, h3]

/-- Witness for `C8_level_amended`: the flag `-l=15` yields level 15. -/
theorem C8_level_amended_witness :
    levelOf (some [45, 108, 61, 49, 53]) = 15 :=
  C8_level_amended.2.2.2.2 [45, 108, 61, 49, 53] [49, 53] 15 rfl rfl (by decide)

/-! ## The path order and insertion sort -/

theorem lexLe_total (a b : List Nat) : lexLe a b = true ∨ lexLe b a = true := by
  induction a generalizing b with
  | nil => left; rfl
  | cons x as ih =>
    cases b with
    | nil => right; rfl
    | cons y bs =>
      simp only [lexLe]
      rcases Nat.lt_trichotomy x y with h | h | h
      · left; rw [if_pos h]
      · subst h
        simp only [Nat.lt_irrefl, if_false]
        exact ih bs
      · right; rw [if_pos h]

theorem lexLe_antisymm : ∀ {a b : List Nat}, lexLe a b = true → lexLe b a = true → a = b := by
  intro a
  induction a with
  | nil =>
    intro b h1 h2
    cases b with
    | nil => rfl
    | cons y bs => exact absurd h2 (by simp [lexLe])
  | cons x as ih =>
    intro b h1 h2
    cases b with
    | nil => exact absurd h1 (by simp [lexLe])
    | cons y bs =>
      simp only [lexLe] at h1 h2
      rcases Nat.lt_trichotomy x y with h | h | h
      · rw [if_neg (by omega), if_pos h] at h2
        exact absurd h2 (by simp)
      · subst h
        rw [if_neg (Nat.lt_irrefl x), if_neg (Nat.lt_irrefl x)] at h1
        rw [ih h1 (by rwa [if_neg (Nat.lt_irrefl x), if_neg (Nat.lt_irrefl x)] at h2)]
      · rw [if_neg (by omega), if_pos h] at h1
        exact absurd h1 (by simp)

theorem lexLe_trans : ∀ {a b c : List Nat},
    lexLe a b = true → lexLe b c = true → lexLe a c = true := by
  intro a
  induction a with
  | nil => intro b c _ _; rfl
  | cons x as ih =>
    intro b c h1 h2
    cases b with
    | nil => exact absurd h1 (by simp [lexLe])
    | cons y bs =>
      cases c with
      | nil => exact absurd h2 (by simp [lexLe])
      | cons z cs =>
        simp only [lexLe] at h1 h2 ⊢
        rcases Nat.lt_trichotomy x y with hxy | hxy | hxy
        · rcases Nat.lt_trichotomy y z with hyz | hyz | hyz
          · rw [if_pos (by omega)]
          · subst hyz; rw [if_pos hxy]
          · rw [if_neg (by omega), if_pos hyz] at h2
            exact absurd h2 (by simp)
        · subst hxy
          rw [if_neg (Nat.lt_irrefl x), if_neg (Nat.lt_irrefl x)] at h1
          rcases Nat.lt_trichotomy x z with hyz | hyz | hyz
          · rw [if_pos hyz]
          · subst hyz
            rw [if_neg (Nat.lt_irrefl x), if_neg (Nat.lt_irrefl x)] at h2 ⊢
            exact ih h1 h2
          · rw [if_neg (by omega), if_pos hyz] at h2
            exact absurd h2 (by simp)
        · rw [if_neg (by omega), if_pos hxy] at h1
          exact absurd h1 (by simp)

theorem insertSorted_perm (e : ArchEntry) (l : List ArchEntry) :
    (insertSorted e l).Perm (e :: l) := by
  induction l with
  | nil => exact .refl _
  | cons x xs ih =>
    simp only [insertSorted]
    by_cases h : lexLe e.path x.path = true
    · rw [if_pos h]
    · rw [if_neg h]
      exact (ih.cons x).trans (List.Perm.swap e x xs)

theorem insertSorted_sorted {e : ArchEntry} {l : List ArchEntry}
    (hs : l.Pairwise pathLe) : (insertSorted e l).Pairwise pathLe := by
  induction l with
  | nil => simp [insertSorted]
  | cons x xs ih =>
    rcases List.pairwise_cons.mp hs with ⟨hx, hxs⟩
    simp only [insertSorted]
    by_cases h : lexLe e.path x.path = true
    · rw [if_pos h]
      refine List.pairwise_cons.mpr ⟨?_, hs⟩
      intro b hb
      rcases List.mem_cons.mp hb with rfl | hb2
      · exact h
      · exact lexLe_trans h (hx b hb2)
    · rw [if_neg h]
      refine List.pairwise_cons.mpr ⟨?_, ih hxs⟩
      intro b hb
      rcases List.mem_cons.mp ((insertSorted_perm e xs).mem_iff.mp hb) with heq | hb2
      · rw [heq]
        rcases lexLe_total e.path x.path with h2 | h2
        · exact absurd h2 h
        · exact h2
      · exact hx b hb2

theorem sortEntries_perm (l : List ArchEntry) : (sortEntries l).Perm l := by
  induction l with
  | nil => exact .refl _
  | cons e es ih => exact (insertSorted_perm e (sortEntries es)).trans (ih.cons e)

theorem sortEntries_sorted (l : List ArchEntry) : (sortEntries l).Pairwise pathLe := by
  induction l with
  | nil => simp [sortEntries]
  | cons e es ih => exact insertSorted_sorted ih

/-- Two path-sorted lists that are permutations of each other and have
pairwise-distinct paths are equal: the physical entry stream is canonical for
a given path-to-content mapping. -/
theorem pathSorted_perm_eq : ∀ {l1 l2 : List ArchEntry}, l1.Perm l2 →
    l1.Pairwise pathLe → l2.Pairwise pathLe →
    (l1.map ArchEntry.path).Nodup → l1 = l2 := by
  intro l1
  induction l1 with
  | nil =>
    intro l2 hp _ _ _
    exact (List.Perm.eq_nil hp.symm).symm
  | cons a l1 ih =>
    intro l2 hp hs1 hs2 hnd
    cases l2 with
    | nil =>
      have := hp.length_eq
      simp at this
    | cons b l2 =>
      have hnd' : a.path ∉ l1.map ArchEntry.path ∧ (l1.map ArchEntry.path).Nodup := by
        rw [List.map_cons, List.nodup_cons] at hnd
        exact hnd
      have hab : a = b := by
        rcases List.mem_cons.mp (hp.mem_iff.mp (List.mem_cons_self a l1)) with h1 | h1
        · exact h1
        · rcases List.mem_cons.mp (hp.mem_iff.mpr (List.mem_cons_self b l2)) with h2 | h2
          · exact h2.symm
          · have hba : pathLe b a := (List.pairwise_cons.mp hs2).1 a h1
            have hab2 : pathLe a b := (List.pairwise_cons.mp hs1).1 b h2
            have hpath : a.path = b.path := lexLe_antisymm hab2 hba
            exact absurd (hpath ▸ List.mem_map_of_mem ArchEntry.path h2) hnd'.1
      subst hab
      rw [ih hp.cons_inv (List.pairwise_cons.mp hs1).2 (List.pairwise_cons.mp hs2).2
        hnd'.2]

/-! ## Claim C4 — encode determinism across enumeration orders -/

/-- The bytes of the container after the metadata region: exactly the sorted
physical entry stream. -/
theorem compressEncode_drop (created : List Nat) (files : List ArchEntry) :
    (compressEncode created files).drop (4 + (metaJsonBytes created files).length) =
      entriesBlob (sortEntries files) := by
  rw [show compressEncode created files =
      u32le (metaJsonBytes created files).length ++ metaJsonBytes created files ++
        entriesBlob (sortEntries files) from rfl]
  rw [show 4 + (metaJsonBytes created files).length =
      (u32le (metaJsonBytes created files).length ++
        metaJsonBytes created files).length by
    rw [List.length_append, u32le_length], List.drop_left]

/-- C4, counterexample: the claim says encoding the same mapping enumerated in
two different orders yields byte-identical containers.  The metadata `files`
list records the enumeration order, so the two container buffers differ even
with identical timestamps. -/
theorem C4_determinism_counterexample :
    compressEncode [] [⟨[97], []⟩, ⟨[98], []⟩] ≠
        compressEncode [] [⟨[98], []⟩, ⟨[97], []⟩] ∧
      ([⟨[97], []⟩, ⟨[98], []⟩] : List ArchEntry).Perm [⟨[98], []⟩, ⟨[97], []⟩] :=
  ⟨by decide, List.Perm.swap _ _ _⟩

/-- C4 (amended): only the physical entry stream is enumeration-order
independent: for two enumerations of the same mapping (same entries, distinct
paths, any order) the container bytes after the metadata region are identical,
the entries being re-sorted by path; the metadata region itself records the
enumeration order (and the timestamp), so the full buffers generally
differ. -/
theorem C4_determinism_amended (created : List Nat) (f1 f2 : List ArchEntry)
    (hperm : f1.Perm f2) (hnd : (f1.map ArchEntry.path).Nodup) :
    (compressEncode created f1).drop (4 + (metaJsonBytes created f1).length) =
      (compressEncode created f2).drop (4 + (metaJsonBytes created f2).length) := by
  have hnd1 : ((sortEntries f1).map ArchEntry.path).Nodup :=
    (((sortEntries_perm f1).map ArchEntry.path).nodup_iff).mpr hnd
  have hsort : sortEntries f1 = sortEntries f2 :=
    pathSorted_perm_eq
      ((sortEntries_perm f1).trans (hperm.trans (sortEntries_perm f2).symm))
      (sortEntries_sorted f1) (sortEntries_sorted f2) hnd1
  rw [compressEncode_drop, compressEncode_drop, hsort]

/-- Witness for `C4_determinism_amended` on a two-file mapping enumerated in
both orders. -/
theorem C4_determinism_amended_witness :
    (compressEncode [] [⟨[97], []⟩, ⟨[98], []⟩]).drop
        (4 + (metaJsonBytes [] [⟨[97], []⟩, ⟨[98], []⟩]).length) =
      (compressEncode [] [⟨[98], []⟩, ⟨[97], []⟩]).drop
        (4 + (metaJsonBytes [] [⟨[98], []⟩, ⟨[97], []⟩]).length) :=
  C4_determinism_amended [] _ _ (List.Perm.swap _ _ _) (by decide)

/-! ## Events of `uncompressArchive` runs -/

theorem writeCount_append (a b : List FsEvent) :
    writeCount (a ++ b) = writeCount a + writeCount b := by
  induction a with
  | nil => simp [writeCount]
  | cons ev r ih =>
    cases ev with
    | ensureDir p => simp [writeCount, ih]
    | writeFile p c => simp [writeCount, ih]; omega

theorem writeCount_extractWrites (outDir : List Nat) (es : List ArchEntry) :
    writeCount (extractWrites outDir es) = es.length := by
  induction es with
  | nil => rfl
  | cons e es ih => simp [extractWrites, writeCount, ih]

/-- A successful `uncompressArchive` run, given the decoded pieces of the
buffer: reported count from the metadata, events from the extraction loop. -/
theorem uncompressArchive_ok (dx : Bool) (outDir buf : List Nat) (j : Json)
    (k : Nat) (es : List ArchEntry)
    (h4 : 4 ≤ buf.length)
    (hparse : jsonParse ((buf.drop 4).take (readU32 buf)) = some j)
    (hcount : getFilesCount j = some k) (hk : k ≠ 0)
    (hex : extractEntries (buf.drop (4 + readU32 buf)) = (es, true)) :
    uncompressArchive true dx outDir buf =
      (.ok (k, (es.map (fun e => e.content.length)).sum),
        (if dx then [] else [.ensureDir outDir]) ++ extractWrites outDir es) := by
  unfold uncompressArchive
  simp only [Bool.not_true, if_neg (by omega : ¬ buf.length < 4), hparse, hcount,
    if_neg hk, hex, Bool.false_eq_true, if_false, if_true]

/-- The events of an `uncompressArchive` run that reaches the extraction loop
depend only on the output directory and the entry stream, whether or not the
loop itself fails. -/
theorem uncompressArchive_events (dx : Bool) (outDir buf : List Nat) (j : Json)
    (k : Nat)
    (h4 : 4 ≤ buf.length)
    (hparse : jsonParse ((buf.drop 4).take (readU32 buf)) = some j)
    (hcount : getFilesCount j = some k) (hk : k ≠ 0) :
    (uncompressArchive true dx outDir buf).2 =
      (if dx then [] else [.ensureDir outDir]) ++
        extractWrites outDir (extractEntries (buf.drop (4 + readU32 buf))).1 := by
  unfold uncompressArchive
  simp only [Bool.not_true, if_neg (by omega : ¬ buf.length < 4), hparse, hcount,
    if_neg hk, Bool.false_eq_true, if_false]
  rcases hE : extractEntries (buf.drop (4 + readU32 buf)) with ⟨es, ok⟩
  cases ok <;> simp

/-- On an `emptyArchive` failure no extraction event has happened: the only
possible event is the initial creation of the output directory. -/
theorem uncompressArchive_emptyArchive_events (dx : Bool) (outDir buf : List Nat)
    (h : (uncompressArchive true dx outDir buf).1 = .error .emptyArchive) :
    (uncompressArchive true dx outDir buf).2 =
      if dx then [] else [.ensureDir outDir] := by
  unfold uncompressArchive at h ⊢
  simp only [Bool.not_true, Bool.false_eq_true, if_false] at h ⊢
  by_cases h4 : buf.length < 4
  · simp [h4] at h
  · simp only [if_neg h4] at h ⊢
    rcases hP : jsonParse ((buf.drop 4).take (readU32 buf)) with _ | j
    · simp [hP] at h
    · simp only [hP] at h ⊢
      rcases hC : getFilesCount j with _ | k
      · simp [hC] at h
      · simp only [hC] at h ⊢
        by_cases hk : k = 0
        · simp [hk]
        · simp only [if_neg hk] at h ⊢
          rcases hE : extractEntries (buf.drop (4 + readU32 buf)) with ⟨es, ok⟩
          simp only [hE] at h ⊢
          cases ok <;> simp at h

/-! ## Claim C9 — validation errors and filesystem effects -/

/-- C9, counterexample: the claim says none of the four validation errors
leaves any file or directory created.  `uncompressArchive` calls
`ensureDirectoryExists(outputDir)` *before* reading the archive, so an
`EmptyArchiveError` on a previously-absent output directory leaves that
directory created. -/
theorem C9_validation_counterexample :
    uncompressArchive true false [111, 117, 116]
        (u32le 12 ++ [123, 34, 102, 105, 108, 101, 115, 34, 58, 91, 93, 125]) =
      (.error .emptyArchive, [.ensureDir [111, 117, 116]]) ∧
      ([FsEvent.ensureDir [111, 117, 116]] : List FsEvent) ≠ [] :=
  ⟨rfl, by decide⟩

/-- C9 (amended): `NotADirectoryError`, `EmptyDirectoryError` and
`NotAFileError` are detected before any write or directory creation (empty
event trace), but `EmptyArchiveError` is detected only after the output
directory has been ensured: when that directory did not already exist, the
failing run has created it (and performed no other effect). -/
theorem C9_validation_amended :
    (∀ (walk : List ArchEntry) (outFile created : List Nat),
        compressDirectory false walk outFile created = (.error .notADirectory, [])) ∧
      (∀ outFile created : List Nat,
        compressDirectory true [] outFile created = (.error .emptyDirectory, [])) ∧
      (∀ (dx : Bool) (outDir buf : List Nat),
        uncompressArchive false dx outDir buf = (.error .notAFile, [])) ∧
      (∀ (dx : Bool) (outDir buf : List Nat),
        (uncompressArchive true dx outDir buf).1 = .error .emptyArchive →
          (uncompressArchive true dx outDir buf).2 =
            if dx then [] else [.ensureDir outDir]) :=
  ⟨fun _ _ _ => rfl, fun _ _ => rfl, fun _ _ _ => rfl,
    fun dx outDir buf h => uncompressArchive_emptyArchive_events dx outDir buf h⟩

/-- Witness for `C9_validation_amended` on a concrete empty-metadata
archive with an absent output directory. -/
theorem C9_validation_amended_witness :
    (uncompressArchive true false [111, 117, 116]
        (u32le 12 ++ [123, 34, 102, 105, 108, 101, 115, 34, 58, 91, 93, 125])).2 =
      if false then [] else [.ensureDir [111, 117, 116]] :=
  C9_validation_amended.2.2.2 false [111, 117, 116]
    (u32le 12 ++ [123, 34, 102, 105, 108, 101, 115, 34, 58, 91, 93, 125]) rfl

/-! ## Claim C10 — the reported file count -/

/-- C10: on a successful run, `uncompressArchive` reports
`metadata.files.length` as the file count, while the number of files written
equals the number of entries in the physical stream; whenever the two differ,
the reported count differs from the number of files actually written. -/
theorem C10_reportedCount (dx : Bool) (outDir buf : List Nat) (j : Json)
    (k : Nat) (es : List ArchEntry)
    (h4 : 4 ≤ buf.length)
    (hparse : jsonParse ((buf.drop 4).take (readU32 buf)) = some j)
    (hcount : getFilesCount j = some k) (hk : k ≠ 0)
    (hex : extractEntries (buf.drop (4 + readU32 buf)) = (es, true))
    (hne : k ≠ es.length) :
    (uncompressArchive true dx outDir buf).1 =
        .ok (k, (es.map (fun e => e.content.length)).sum) ∧
      writeCount (uncompressArchive true dx outDir buf).2 = es.length ∧
      k ≠ writeCount (uncompressArchive true dx outDir buf).2 := by
  rw [uncompressArchive_ok dx outDir buf j k es h4 hparse hcount hk hex]
  have hw : writeCount ((if dx then ([] : List FsEvent) else [.ensureDir outDir]) ++
      extractWrites outDir es) = es.length := by
    rw [writeCount_append, writeCount_extractWrites]
    cases dx <;> simp [writeCount]
  exact ⟨rfl, hw, by rw [hw]; exact hne⟩

/-- Witness for `C10_reportedCount`: metadata listing two files over a
one-entry stream reports 2 but writes 1 file. -/
theorem C10_reportedCount_witness :
    (uncompressArchive true false [111, 117, 116]
        (u32le 15 ++ [123, 34, 102, 105, 108, 101, 115, 34, 58, 91, 48, 44, 48, 93, 125] ++
          [1, 0, 0, 0, 0, 0, 0, 0, 97])).1 = .ok (2, 0) ∧
      writeCount (uncompressArchive true false [111, 117, 116]
        (u32le 15 ++ [123, 34, 102, 105, 108, 101, 115, 34, 58, 91, 48, 44, 48, 93, 125] ++
          [1, 0, 0, 0, 0, 0, 0, 0, 97])).2 = 1 ∧
      (2 : Nat) ≠ writeCount (uncompressArchive true false [111, 117, 116]
        (u32le 15 ++ [123, 34, 102, 105, 108, 101, 115, 34, 58, 91, 48, 44, 48, 93, 125] ++
          [1, 0, 0, 0, 0, 0, 0, 0, 97])).2 :=
  C10_reportedCount false [111, 117, 116] _
    (.obj [(filesKey, .arr [.num, .num])]) 2 [⟨[97], []⟩]
    (by decide) rfl rfl (by decide) rfl (by decide)

/-! ## Claim C5 — reconstruction ignores the metadata file list -/

/-- C5: the files unpacked (the full event trace: directories ensured and
files written, in order) depend only on the output directory and the physical
entry stream, never on the contents of the metadata `files` list: two
containers sharing one entry stream but carrying different parseable
metadata with non-empty `files` arrays produce identical event traces. -/
theorem C5_metadataIndependence (dx : Bool) (outDir m1 m2 s : List Nat)
    (j1 j2 : Json) (k1 k2 : Nat)
    (hp1 : jsonParse m1 = some j1) (hc1 : getFilesCount j1 = some k1)
    (hk1 : k1 ≠ 0)
    (hp2 : jsonParse m2 = some j2) (hc2 : getFilesCount j2 = some k2)
    (hk2 : k2 ≠ 0)
    (hl1 : m1.length < 2 ^ 32) (hl2 : m2.length < 2 ^ 32) :
    (uncompressArchive true dx outDir (u32le m1.length ++ m1 ++ s)).2 =
      (uncompressArchive true dx outDir (u32le m2.length ++ m2 ++ s)).2 := by
  have build : ∀ (m : List Nat) (j : Json) (k : Nat), m.length < 2 ^ 32 →
      jsonParse m = some j → getFilesCount j = some k → k ≠ 0 →
      (uncompressArchive true dx outDir (u32le m.length ++ m ++ s)).2 =
        (if dx then [] else [.ensureDir outDir]) ++
          extractWrites outDir (extractEntries s).1 := by
    intro m j k hm hp hc hk
    have hru : readU32 (u32le m.length ++ m ++ s) = m.length := by
      rw [List.append_assoc, readU32_u32le_append_eq _ _ hm]
    have hd4 : ((u32le m.length ++ m ++ s).drop 4).take m.length = m := by
      rw [List.append_assoc, show (4 : Nat) = (u32le m.length).length from rfl,
        List.drop_left, List.take_left]
    have hds : (u32le m.length ++ m ++ s).drop (4 + m.length) = s := by
      rw [show 4 + m.length = (u32le m.length ++ m).length by
        rw [List.length_append, u32le_length], List.drop_left]
    have h4 : 4 ≤ (u32le m.length ++ m ++ s).length := by
      simp [u32le]
    rw [uncompressArchive_events dx outDir _ j k h4 (by rw [hru, hd4]; exact hp)
      hc hk, hru, hds]
  rw [build m1 j1 k1 hl1 hp1 hc1 hk1, build m2 j2 k2 hl2 hp2 hc2 hk2]

/-- Witness for `C5_metadataIndependence`: metadata `{"files":[0]}` and
`{"files":[0,0]}` over the same one-entry stream. -/
theorem C5_metadataIndependence_witness :
    (uncompressArchive true false [111, 117, 116]
        (u32le 13 ++ [123, 34, 102, 105, 108, 101, 115, 34, 58, 91, 48, 93, 125] ++
          [1, 0, 0, 0, 1, 0, 0, 0, 97, 104])).2 =
      (uncompressArchive true false [111, 117, 116]
        (u32le 15 ++ [123, 34, 102, 105, 108, 101, 115, 34, 58, 91, 48, 44, 48, 93, 125] ++
          [1, 0, 0, 0, 1, 0, 0, 0, 97, 104])).2 :=
  C5_metadataIndependence false [111, 117, 116]
    [123, 34, 102, 105, 108, 101, 115, 34, 58, 91, 48, 93, 125]
    [123, 34, 102, 105, 108, 101, 115, 34, 58, 91, 48, 44, 48, 93, 125]
    [1, 0, 0, 0, 1, 0, 0, 0, 97, 104]
    (.obj [(filesKey, .arr [.num])]) (.obj [(filesKey, .arr [.num, .num])]) 1 2
    rfl rfl (by decide) rfl rfl (by decide) (by decide) (by decide)

/-! ## `JSON.parse` recovers what `JSON.stringify` wrote

The decoder's metadata check hinges on `JSON.parse` succeeding on the
serialised metadata of *any* input mapping.  The lemmas here walk the parser
through the serialiser's output; concrete bytes reduce definitionally and the
symbolic parts (escaped strings, decimal sizes, the file-descriptor list) are
handled by the corresponding lemmas. -/

theorem hexVal_digitChar {x : Nat} (hx : x < 16) :
    hexVal (if x < 10 then 48 + x else 87 + x) = some x := by
  by_cases h : x < 10
  · rw [if_pos h]
    unfold hexVal
    rw [if_pos (by omega)]
    congr 1
    omega
  · rw [if_neg h]
    unfold hexVal
    rw [if_neg (by omega), if_pos (by omega)]
    congr 1
    omega

theorem parseStrBody_escape (s r : List Nat) :
    parseStrBody (escapeJsonString s ++ 34 :: r) = some (s, r) := by
  induction s with
  | nil =>
    show parseStrBody (34 :: r) = some ([], r)
    rw [parseStrBody.eq_def]
    norm_num
  | cons b bs ih =>
    show parseStrBody ((escapeJsonByte b ++ escapeJsonString bs) ++ 34 :: r) = _
    rw [List.append_assoc]
    by_cases h34 : b = 34
    · subst h34
      show parseStrBody (92 :: 34 :: (escapeJsonString bs ++ 34 :: r)) = _
      rw [parseStrBody.eq_def]
      simp [escByte, ih]
    · by_cases h92 : b = 92
      · subst h92
        show parseStrBody (92 :: 92 :: (escapeJsonString bs ++ 34 :: r)) = _
        rw [parseStrBody.eq_def]
        simp [escByte, ih]
      · by_cases h8 : b = 8
        · subst h8
          show parseStrBody (92 :: 98 :: (escapeJsonString bs ++ 34 :: r)) = _
          rw [parseStrBody.eq_def]
          simp [escByte, ih]
        · by_cases h9 : b = 9
          · subst h9
            show parseStrBody (92 :: 116 :: (escapeJsonString bs ++ 34 :: r)) = _
            rw [parseStrBody.eq_def]
            simp [escByte, ih]
          · by_cases h10 : b = 10
            · subst h10
              show parseStrBody (92 :: 110 :: (escapeJsonString bs ++ 34 :: r)) = _
              rw [parseStrBody.eq_def]
              simp [escByte, ih]
            · by_cases h12 : b = 12
              · subst h12
                show parseStrBody (92 :: 102 :: (escapeJsonString bs ++ 34 :: r)) = _
                rw [parseStrBody.eq_def]
                simp [escByte, ih]
              · by_cases h13 : b = 13
                · subst h13
                  show parseStrBody (92 :: 114 :: (escapeJsonString bs ++ 34 :: r)) = _
                  rw [parseStrBody.eq_def]
                  simp [escByte, ih]
                · have hesc : escapeJsonByte b =
                      if b < 32 then
                        [92, 117, 48, 48,
                          if b / 16 < 10 then 48 + b / 16 else 87 + b / 16,
                          if b % 16 < 10 then 48 + b % 16 else 87 + b % 16]
                      else [b] := by
                    unfold escapeJsonByte
                    rw [if_neg h34, if_neg h92, if_neg h8, if_neg h9, if_neg h10,
                      if_neg h12, if_neg h13]
                  by_cases hc : b < 32
                  · rw [hesc, if_pos hc]
                    show parseStrBody (92 :: 117 :: 48 :: 48 ::
                        (if b / 16 < 10 then 48 + b / 16 else 87 + b / 16) ::
                        (if b % 16 < 10 then 48 + b % 16 else 87 + b % 16) ::
                        (escapeJsonString bs ++ 34 :: r)) = _
                    rw [parseStrBody.eq_def]
                    norm_num
                    rw [hexVal_digitChar (by omega : b / 16 < 16),
                      hexVal_digitChar (by omega : b % 16 < 16),
                      show hexVal 48 = some 0 from rfl]
                    simp [ih]
                    rw [show 16 * (b / 16) + b % 16 = b by omega]
                    unfold utf8Enc
                    rw [if_pos (by omega : b < 128)]
                    simp
                  · rw [hesc, if_neg hc]
                    show parseStrBody (b :: (escapeJsonString bs ++ 34 :: r)) = _
                    rw [parseStrBody.eq_def]
                    simp [if_neg h34, if_neg h92, if_neg hc, ih]

theorem skipWs_cons_high {b : Nat} (h : 32 < b) (l : List Nat) :
    skipWs (b :: l) = b :: l := by
  rw [skipWs.eq_def]
  show (if b = 32 ∨ b = 9 ∨ b = 10 ∨ b = 13 then skipWs l else b :: l) = b :: l
  rw [if_neg (by omega)]

theorem natDigits_spec (n : Nat) : ∃ d ds, natDigits n = d :: ds ∧
    isDigit d = true ∧ (∀ x ∈ ds, isDigit x = true) ∧ (d = 48 → n = 0) := by
  induction n using Nat.strong_induction_on with
  | _ n ih =>
    rw [natDigits_eq]
    by_cases h : n < 10
    · rw [if_pos h]
      exact ⟨48 + n, [], rfl, by simp [isDigit]; omega, by simp, by omega⟩
    · rw [if_neg h]
      obtain ⟨d, ds, hd, hdig, hall, hz⟩ :=
        ih (n / 10) (Nat.div_lt_self (by omega) (by omega))
      rw [hd]
      refine ⟨d, ds ++ [48 + n % 10], rfl, hdig, ?_,
        fun h48 => absurd (hz h48) (by omega)⟩
      intro x hx
      rcases List.mem_append.mp hx with hx | hx
      · exact hall x hx
      · simp at hx
        subst hx
        simp [isDigit]
        omega

theorem takeDigits_append (ds : List Nat) (c : Nat) (r : List Nat)
    (hds : ∀ x ∈ ds, isDigit x = true) (hc : isDigit c = false) :
    takeDigits (ds ++ c :: r) = (ds, c :: r) := by
  induction ds with
  | nil =>
    show takeDigits (c :: r) = ([], c :: r)
    rw [takeDigits.eq_def]
    show (if isDigit c then
        match takeDigits r with
        | (d, rest) => (c :: d, rest)
      else ([], c :: r)) = ([], c :: r)
    rw [hc]
    simp
  | cons d ds ih =>
    show takeDigits (d :: (ds ++ c :: r)) = _
    rw [takeDigits.eq_def]
    show (if isDigit d then
        match takeDigits (ds ++ c :: r) with
        | (dd, rest) => (d :: dd, rest)
      else ([], d :: (ds ++ c :: r))) = (d :: ds, c :: r)
    rw [hds d (by simp), ih (fun x hx => hds x (by simp [hx]))]
    simp

theorem parseFrac_125 (r : List Nat) : parseFrac (125 :: r) = some (125 :: r) := by
  rw [parseFrac.eq_def]
  show (if (125 : Nat) = 46 then
      match takeDigits r with
      | ([], _) => none
      | (_ :: _, rest) => some rest
    else some (125 :: r)) = some (125 :: r)
  norm_num

theorem parseExp_125 (r : List Nat) : parseExp (125 :: r) = some (125 :: r) := by
  rw [parseExp.eq_def]
  norm_num

theorem parseNum_cons {b : Nat} (l : List Nat) (hb : b ≠ 45) :
    parseNum (b :: l) =
      if b = 48 then
        match parseFrac l with
        | some r2 => parseExp r2
        | none => none
      else
        if isDigit b then
          match parseFrac (takeDigits l).2 with
          | some r2 => parseExp r2
          | none => none
        else none := by
  simp only [parseNum, List.headD_cons]
  rw [if_neg hb]

theorem parseNum_natDigits (n : Nat) (r : List Nat) :
    parseNum (natDigits n ++ 125 :: r) = some (125 :: r) := by
  obtain ⟨d, ds, hd, hdig, hall, hz⟩ := natDigits_spec n
  have hdd : 48 ≤ d ∧ d ≤ 57 := by simpa [isDigit] using hdig
  rw [hd, List.cons_append, parseNum_cons _ (by omega)]
  by_cases h48 : d = 48
  · have hn0 : n = 0 := hz h48
    have hds0 : ds = [] := by
      have h1 : natDigits 0 = d :: ds := by rw [← hn0]; exact hd
      have h2 : ([48] : List Nat) = d :: ds := h1
      injection h2 with _ h3
      exact h3.symm
    subst hds0
    rw [if_pos h48, List.nil_append, parseFrac_125]
    exact parseExp_125 r
  · rw [if_neg h48, if_pos hdig,
      takeDigits_append ds 125 r hall (by simp [isDigit])]
    show (match parseFrac (125 :: r) with
          | some r2 => parseExp r2
          | none => none) = some (125 :: r)
    rw [parseFrac_125]
    exact parseExp_125 r

theorem parseValue_str (fuel : Nat) (l s r : List Nat)
    (h : parseStrBody l = some (s, r)) :
    parseValue (fuel + 1) (34 :: l) = some (.str s, r) := by
  rw [parseValue.eq_2]
  simp [skipWs_cons_high (show (32 : Nat) < 34 by norm_num), h]

theorem parseValue_arr_nil (fuel : Nat) (r : List Nat) :
    parseValue (fuel + 1) (91 :: 93 :: r) = some (.arr [], r) := by
  rw [parseValue.eq_2]
  simp [skipWs_cons_high (show (32 : Nat) < 91 by norm_num),
    skipWs_cons_high (show (32 : Nat) < 93 by norm_num)]

theorem parseValue_arr_items (fuel : Nat) (l : List Nat) (xs : List Json)
    (r : List Nat) (h : parseItems fuel (123 :: l) = some (xs, r)) :
    parseValue (fuel + 1) (91 :: 123 :: l) = some (.arr xs, r) := by
  rw [parseValue.eq_2]
  simp [skipWs_cons_high (show (32 : Nat) < 91 by norm_num),
    skipWs_cons_high (show (32 : Nat) < 123 by norm_num), h]

theorem parseValue_obj_members (fuel : Nat) (l : List Nat)
    (kvs : List (List Nat × Json)) (r : List Nat)
    (h : parseMembers fuel (34 :: l) = some (kvs, r)) :
    parseValue (fuel + 1) (123 :: 34 :: l) = some (.obj kvs, r) := by
  rw [parseValue.eq_2]
  simp [skipWs_cons_high (show (32 : Nat) < 123 by norm_num),
    skipWs_cons_high (show (32 : Nat) < 34 by norm_num), h]

theorem parseItems_lastLem (fuel : Nat) (l : List Nat) (v : Json) (r : List Nat)
    (h : parseValue fuel l = some (v, 93 :: r)) :
    parseItems (fuel + 1) l = some ([v], r) := by
  rw [parseItems.eq_2]
  simp [h, skipWs_cons_high (show (32 : Nat) < 93 by norm_num)]

theorem parseItems_consLem (fuel : Nat) (l : List Nat) (v : Json)
    (r : List Nat) (xs : List Json) (r2 : List Nat)
    (h : parseValue fuel l = some (v, 44 :: r))
    (hrest : parseItems fuel r = some (xs, r2)) :
    parseItems (fuel + 1) l = some (v :: xs, r2) := by
  rw [parseItems.eq_2]
  simp [h, hrest, skipWs_cons_high (show (32 : Nat) < 44 by norm_num)]

theorem parseMembers_lastLem (fuel : Nat) (l l2 : List Nat) (k : List Nat)
    (v : Json) (r : List Nat)
    (hk : parseStrBody l = some (k, 58 :: l2))
    (hv : parseValue fuel l2 = some (v, 125 :: r)) :
    parseMembers (fuel + 1) (34 :: l) = some ([(k, v)], r) := by
  rw [parseMembers.eq_2]
  simp [hk, hv, skipWs_cons_high (show (32 : Nat) < 34 by norm_num),
    skipWs_cons_high (show (32 : Nat) < 58 by norm_num),
    skipWs_cons_high (show (32 : Nat) < 125 by norm_num)]

theorem parseMembers_consLem (fuel : Nat) (l l2 l3 : List Nat) (k : List Nat)
    (v : Json) (kvs : List (List Nat × Json)) (r : List Nat)
    (hk : parseStrBody l = some (k, 58 :: l2))
    (hv : parseValue fuel l2 = some (v, 44 :: l3))
    (hrest : parseMembers fuel l3 = some (kvs, r)) :
    parseMembers (fuel + 1) (34 :: l) = some ((k, v) :: kvs, r) := by
  rw [parseMembers.eq_2]
  simp [hk, hv, hrest, skipWs_cons_high (show (32 : Nat) < 34 by norm_num),
    skipWs_cons_high (show (32 : Nat) < 58 by norm_num),
    skipWs_cons_high (show (32 : Nat) < 44 by norm_num)]

theorem parseValue_natDigits (fuel : Nat) (n : Nat) (r : List Nat) :
    parseValue (fuel + 1) (natDigits n ++ 125 :: r) = some (.num, 125 :: r) := by
  obtain ⟨d, ds, hd, hdig, -, -⟩ := natDigits_spec n
  have hdd : 48 ≤ d ∧ d ≤ 57 := by simpa [isDigit] using hdig
  rw [hd, List.cons_append, parseValue.eq_2, skipWs_cons_high (by omega)]
  show (if d = 110 then
      match ds ++ 125 :: r with
      | 117 :: 108 :: 108 :: r2 => some (Json.null, r2)
      | _ => none
    else if d = 116 then
      match ds ++ 125 :: r with
      | 114 :: 117 :: 101 :: r2 => some (Json.bool true, r2)
      | _ => none
    else if d = 102 then
      match ds ++ 125 :: r with
      | 97 :: 108 :: 115 :: 101 :: r2 => some (Json.bool false, r2)
      | _ => none
    else if d = 34 then
      match parseStrBody (ds ++ 125 :: r) with
      | some (s, r2) => some (Json.str s, r2)
      | none => none
    else if d = 91 then
      match skipWs (ds ++ 125 :: r) with
      | 93 :: r2 => some (Json.arr [], r2)
      | r1 =>
        match parseItems fuel r1 with
        | some (xs, r2) => some (Json.arr xs, r2)
        | none => none
    else if d = 123 then
      match skipWs (ds ++ 125 :: r) with
      | 125 :: r2 => some (Json.obj [], r2)
      | r1 =>
        match parseMembers fuel r1 with
        | some (kvs, r2) => some (Json.obj kvs, r2)
        | none => none
    else if d = 45 ∨ isDigit d then
      match parseNum (d :: (ds ++ 125 :: r)) with
      | some r2 => some (Json.num, r2)
      | none => none
    else none) = some (.num, 125 :: r)
  rw [if_neg (by omega : ¬ d = 110), if_neg (by omega : ¬ d = 116),
    if_neg (by omega : ¬ d = 102), if_neg (by omega : ¬ d = 34),
    if_neg (by omega : ¬ d = 91), if_neg (by omega : ¬ d = 123),
    if_pos (Or.inr hdig), ← List.cons_append, ← hd, parseNum_natDigits]

theorem parseValue_fileDesc (fuel : Nat) (e : ArchEntry) (r : List Nat) :
    parseValue (fuel + 4) (fileDescJson e ++ r) = some (fileDescValue e, r) := by
  have hshape : fileDescJson e ++ r =
      123 :: 34 :: (112 :: 97 :: 116 :: 104 :: 34 :: 58 :: (34 ::
        (escapeJsonString e.path ++ 34 :: (44 :: 34 ::
          (115 :: 105 :: 122 :: 101 :: 34 :: 58 ::
            (natDigits e.content.length ++ 125 :: r)))))) := by
    simp [fileDescJson, fdescHead, fdescSize, strLit]
  rw [hshape]
  exact parseValue_obj_members (fuel + 3) _ _ _
    (parseMembers_consLem (fuel + 2) _ _ _ _ _ _ _
      (parseStrBody_escape pathKey _)
      (parseValue_str (fuel + 1) _ _ _ (parseStrBody_escape e.path _))
      (parseMembers_lastLem (fuel + 1) _ _ _ _ _
        (parseStrBody_escape sizeKey _)
        (parseValue_natDigits fuel e.content.length r)))

theorem parseItems_fileDescs : ∀ (files : List ArchEntry), files ≠ [] →
    ∀ (fuel : Nat) (r : List Nat),
    parseItems (fuel + 5 * files.length) (fileDescsJson files ++ 93 :: r) =
      some (files.map fileDescValue, r) := by
  intro files
  induction files with
  | nil => intro h; exact absurd rfl h
  | cons e es ih =>
    intro _ fuel r
    by_cases hes : es = []
    · subst hes
      rw [show fileDescsJson [e] = fileDescJson e by simp [fileDescsJson]]
      rw [show fuel + 5 * ([e] : List ArchEntry).length = (fuel + 4) + 1 by
        simp]
      exact parseItems_lastLem (fuel + 4) _ _ _ (parseValue_fileDesc fuel e (93 :: r))
    · rw [show fileDescsJson (e :: es) = fileDescJson e ++ 44 :: fileDescsJson es by
        simp [fileDescsJson, hes]]
      rw [show fuel + 5 * (e :: es).length = (fuel + 5 * es.length + 4) + 1 by
        simp [List.length_cons]; ring]
      have hv : parseValue (fuel + 5 * es.length + 4)
          (fileDescJson e ++ (44 :: (fileDescsJson es ++ 93 :: r))) =
          some (fileDescValue e, 44 :: (fileDescsJson es ++ 93 :: r)) :=
        parseValue_fileDesc (fuel + 5 * es.length) e _
      have hrest : parseItems (fuel + 5 * es.length + 4)
          (fileDescsJson es ++ 93 :: r) = some (es.map fileDescValue, r) := by
        have h2 := ih hes (fuel + 4) r
        rw [show fuel + 4 + 5 * es.length = fuel + 5 * es.length + 4 by omega] at h2
        exact h2
      have h3 := parseItems_consLem (fuel + 5 * es.length + 4) _ _ _ _ _ hv hrest
      rw [show (fileDescJson e ++ 44 :: fileDescsJson es) ++ 93 :: r =
        fileDescJson e ++ (44 :: (fileDescsJson es ++ 93 :: r)) by simp]
      simpa using h3

theorem parseValue_filesArr (files : List ArchEntry) (fuel : Nat) (r : List Nat) :
    parseValue (fuel + 5 * files.length + 2)
      (91 :: (fileDescsJson files ++ 93 :: r)) =
      some (.arr (files.map fileDescValue), r) := by
  rcases files with _ | ⟨e, es⟩
  · rw [show fuel + 5 * ([] : List ArchEntry).length + 2 = (fuel + 1) + 1 by simp]
    rw [show (91 : Nat) :: (fileDescsJson [] ++ 93 :: r) = 91 :: 93 :: r by
      simp [fileDescsJson]]
    exact parseValue_arr_nil (fuel + 1) r
  · have hshape : fileDescsJson (e :: es) ++ 93 :: r =
        123 :: ((34 :: 112 :: 97 :: 116 :: 104 :: 34 :: 58 ::
          (strLit e.path ++ fdescSize ++ natDigits e.content.length ++ [125])) ++
          ((if es = [] then [] else 44 :: fileDescsJson es) ++ 93 :: r)) := by
      simp [fileDescsJson, fileDescJson, fdescHead, fdescSize]
    have hitems : parseItems (fuel + 5 * (e :: es).length + 1)
        (fileDescsJson (e :: es) ++ 93 :: r) =
        some ((e :: es).map fileDescValue, r) := by
      have h2 := parseItems_fileDescs (e :: es) (by simp) (fuel + 1) r
      rw [show fuel + 1 + 5 * (e :: es).length =
        fuel + 5 * (e :: es).length + 1 by omega] at h2
      exact h2
    rw [hshape] at hitems ⊢
    exact parseValue_arr_items _ _ _ _ hitems

theorem parseValue_metaJson (created : List Nat) (files : List ArchEntry)
    (fuel : Nat) (r : List Nat) :
    parseValue (fuel + 5 * files.length + 6) (metaJsonBytes created files ++ r) =
      some (metaValue created files, r) := by
  have hshape : metaJsonBytes created files ++ r =
      123 :: 34 :: (118 :: 101 :: 114 :: 115 :: 105 :: 111 :: 110 :: 34 :: 58 ::
        (34 :: 49 :: 46 :: 48 :: 34 :: (44 :: 34 ::
          (99 :: 114 :: 101 :: 97 :: 116 :: 101 :: 100 :: 34 :: 58 :: (34 ::
            (escapeJsonString created ++ 34 :: (44 :: 34 ::
              (102 :: 105 :: 108 :: 101 :: 115 :: 34 :: 58 :: (91 ::
                (fileDescsJson files ++ 93 :: (125 :: r))))))))))) := by
    simp [metaJsonBytes, metaHead, metaFilesIntro, strLit]
  rw [hshape]
  exact parseValue_obj_members (fuel + 5 * files.length + 5) _ _ _
    (parseMembers_consLem (fuel + 5 * files.length + 4) _ _ _ _ _ _ _
      (parseStrBody_escape versionKey _)
      (parseValue_str (fuel + 5 * files.length + 3) _ _ _
        (parseStrBody_escape [49, 46, 48] _))
      (parseMembers_consLem (fuel + 5 * files.length + 3) _ _ _ _ _ _ _
        (parseStrBody_escape createdKey _)
        (parseValue_str (fuel + 5 * files.length + 2) _ _ _
          (parseStrBody_escape created _))
        (parseMembers_lastLem (fuel + 5 * files.length + 2) _ _ _ _ _
          (parseStrBody_escape filesKey _)
          (parseValue_filesArr files fuel (125 :: r)))))

theorem natDigits_length_pos (n : Nat) : 0 < (natDigits n).length := by
  obtain ⟨d, ds, hd, -, -, -⟩ := natDigits_spec n
  rw [hd]
  simp

theorem fileDescJson_length_lb (e : ArchEntry) : 20 ≤ (fileDescJson e).length := by
  have := natDigits_length_pos e.content.length
  simp [fileDescJson, fdescHead, fdescSize, strLit, List.length_append]
  omega

theorem fileDescsJson_length_lb : ∀ files : List ArchEntry,
    20 * files.length ≤ (fileDescsJson files).length + 1 := by
  intro files
  induction files with
  | nil => simp
  | cons e es ih =>
    have hfd := fileDescJson_length_lb e
    rw [show fileDescsJson (e :: es) =
      fileDescJson e ++ (if es = [] then [] else 44 :: fileDescsJson es) from rfl]
    by_cases hes : es = []
    · subst hes
      simp [List.length_append]
      omega
    · rw [if_neg hes]
      simp only [List.length_append, List.length_cons, List.length_cons]
      simp only [List.length_cons] at ih ⊢
      omega

theorem metaJsonBytes_length_lb (created : List Nat) (files : List ArchEntry) :
    5 * files.length + 6 ≤ 2 * (metaJsonBytes created files).length + 2 := by
  have hd := fileDescsJson_length_lb files
  simp [metaJsonBytes, metaHead, metaFilesIntro, strLit, List.length_append]
  omega

theorem jsonParse_metaJson (created : List Nat) (files : List ArchEntry) :
    jsonParse (metaJsonBytes created files) = some (metaValue created files) := by
  unfold jsonParse
  have hlb := metaJsonBytes_length_lb created files
  have hp := parseValue_metaJson created files
    (2 * (metaJsonBytes created files).length + 2 - (5 * files.length + 6)) []
  rw [List.append_nil] at hp
  rw [show 2 * (metaJsonBytes created files).length + 2 -
      (5 * files.length + 6) + 5 * files.length + 6 =
      2 * (metaJsonBytes created files).length + 2 by omega] at hp
  rw [hp]
  show (if skipWs [] = [] then some (metaValue created files) else none) = _
  simp [skipWs]

theorem getFilesCount_metaValue (created : List Nat) (files : List ArchEntry) :
    getFilesCount (metaValue created files) = some files.length := by
  rw [show getFilesCount (metaValue created files) =
      (match lookupLast filesKey [(versionKey, Json.str [49, 46, 48]),
          (createdKey, Json.str created),
          (filesKey, Json.arr (files.map fileDescValue))] with
        | some (Json.arr l) => some l.length
        | _ => none) from rfl]
  rw [show lookupLast filesKey [(versionKey, Json.str [49, 46, 48]),
      (createdKey, Json.str created),
      (filesKey, Json.arr (files.map fileDescValue))] =
      some (Json.arr (files.map fileDescValue)) from rfl]
  show some (files.map fileDescValue).length = some files.length
  rw [List.length_map]

/-! ## Claim C1 — round trip -/

theorem extractEntries_zeros : ∀ k : Nat,
    extractEntries (List.replicate (8 * k) 0) =
      (List.replicate k ⟨[], []⟩, true) := by
  intro k
  induction k with
  | zero => rfl
  | succ k ih =>
    have h8 : List.replicate (8 * (k + 1)) (0 : Nat) =
        entryBytes ⟨[], []⟩ ++ List.replicate (8 * k) 0 := by
      rw [show 8 * (k + 1) = 8 + 8 * k by ring, List.replicate_add]
      congr 1
    rw [h8, extractEntries_block ⟨[], []⟩ _ (by norm_num) (by norm_num), ih,
      List.replicate_succ]

/-- C1 (amended): for every non-empty mapping whose path byte lengths,
content byte lengths and serialised metadata length are all below `2 ^ 32`,
decoding the encoded container succeeds and returns exactly the entries of
the mapping (in sorted path order — a permutation of the input, hence the
same set of (path, content) pairs, byte-identical). -/
theorem C1_roundTrip_amended (created : List Nat) (files : List ArchEntry)
    (hne : files ≠ [])
    (hnd : (files.map ArchEntry.path).Nodup)
    (hlen : ∀ e ∈ files, e.path.length < 2 ^ 32 ∧ e.content.length < 2 ^ 32)
    (hmeta : (metaJsonBytes created files).length < 2 ^ 32) :
    uncompressDecode (compressEncode created files) =
        .ok (files.length, sortEntries files) ∧
      (sortEntries files).Perm files := by
  refine ⟨?_, sortEntries_perm files⟩
  rw [uncompressDecode_encode created files hmeta]
  have hblob : extractEntries (entriesBlob (sortEntries files)) =
      (sortEntries files, true) :=
    extractEntries_blob _ (fun e he => hlen e ((sortEntries_perm files).mem_iff.mp he))
  simp only [jsonParse_metaJson, getFilesCount_metaValue, hblob]
  rw [if_neg (show ¬ files.length = 0 by simpa using hne)]

/-- Witness for `C1_roundTrip_amended`: a two-file mapping with an
empty-content file and a nested-directory path. -/
theorem C1_roundTrip_amended_witness :
    uncompressDecode (compressEncode []
        [⟨[97], [104, 105]⟩, ⟨[115, 117, 98, 47, 98], []⟩]) =
        .ok (2, sortEntries [⟨[97], [104, 105]⟩, ⟨[115, 117, 98, 47, 98], []⟩]) ∧
      (sortEntries [⟨[97], [104, 105]⟩, ⟨[115, 117, 98, 47, 98], []⟩]).Perm
        [⟨[97], [104, 105]⟩, ⟨[115, 117, 98, 47, 98], []⟩] :=
  C1_roundTrip_amended [] _ (by decide) (by decide) (by decide) (by decide)


theorem natDigits_length_le : ∀ k : Nat, 1 ≤ k → ∀ n : Nat, n < 10 ^ k →
    (natDigits n).length ≤ k := by
  intro k
  induction k with
  | zero => omega
  | succ k ih =>
    intro _ n hn
    rw [natDigits_eq]
    by_cases h : n < 10
    · rw [if_pos h]
      simp
    · rw [if_neg h]
      have hk1 : 1 ≤ k := by
        by_contra hk0
        have : k = 0 := by omega
        subst this
        simp at hn
        omega
      have hdiv : n / 10 < 10 ^ k := by
        rw [pow_succ] at hn
        omega
      have := ih hk1 (n / 10) hdiv
      simp [List.length_append]
      omega

/-- C1, counterexample: the round-trip claim quantifies over *every*
non-empty mapping, but the code wraps length fields modulo `2 ^ 32`.  For the
mapping `{a ↦ 2^32 zero bytes}`, the content-length field is written as 0;
decode then reads an empty content for `a` and re-parses the `2 ^ 32` zero
bytes as `2 ^ 29` further empty entries, so the decoded set of (path,
content) pairs is not the input set: it contains the pair `(a, [])`, which
the input does not. -/
theorem C1_roundTrip_counterexample :
    ¬ ∃ (k : Nat) (es : List ArchEntry),
        uncompressDecode (compressEncode []
            [⟨[97], List.replicate (2 ^ 32) 0⟩]) = .ok (k, es) ∧
          ∀ p : ArchEntry,
            p ∈ es ↔ p ∈ [(⟨[97], List.replicate (2 ^ 32) 0⟩ : ArchEntry)] := by
  rintro ⟨k, es, heq, hiff⟩
  obtain ⟨C, hCdef⟩ : ∃ C : List Nat, C = List.replicate (2 ^ 32) 0 := ⟨_, rfl⟩
  rw [← hCdef] at heq hiff
  have hclen : C.length = 2 ^ 32 := by
    rw [hCdef]
    exact List.length_replicate _ _
  have hm : metaJsonBytes [] [⟨[97], C⟩] =
      metaHead ++ strLit [] ++ metaFilesIntro ++
        (fdescHead ++ strLit [97] ++ fdescSize ++ natDigits (2 ^ 32) ++ [125]) ++
        [93, 125] := by
    simp [metaJsonBytes, fileDescsJson, fileDescJson, hclen]
  have h10 : (natDigits 4294967296).length ≤ 10 :=
    natDigits_length_le 10 (by norm_num) _ (by norm_num)
  have hmeta : (metaJsonBytes [] [⟨[97], C⟩]).length < 2 ^ 32 := by
    rw [hm]
    simp [metaHead, metaFilesIntro, fdescHead, fdescSize, strLit,
      escapeJsonString, escapeJsonByte, List.length_append]
    omega
  have hb : entryBytes ⟨[97], C⟩ =
      u32le 1 ++ (u32le (2 ^ 32) ++ ([97] ++ C)) := by
    simp [entryBytes, hclen, List.append_assoc]
  have hlen8 : 8 ≤ (entryBytes ⟨[97], C⟩).length := by
    rw [hb]
    simp [u32le, List.length_append]
  have hru1 : readU32 (entryBytes ⟨[97], C⟩) = 1 := by
    rw [hb]
    exact readU32_u32le_append_eq 1 _ (by norm_num)
  have hd4 : (entryBytes ⟨[97], C⟩).drop 4 = u32le (2 ^ 32) ++ ([97] ++ C) := by
    rw [hb, show (4 : Nat) = (u32le 1).length from rfl, List.drop_left]
  have hru2 : readU32 ((entryBytes ⟨[97], C⟩).drop 4) = 0 := by
    rw [hd4, readU32_u32le_append]
    norm_num
  have hd8 : (entryBytes ⟨[97], C⟩).drop 8 = [97] ++ C := by
    rw [hb, ← List.append_assoc,
      show (8 : Nat) = (u32le 1 ++ u32le (2 ^ 32)).length from rfl, List.drop_left]
  have hz : extractEntries C = (List.replicate (2 ^ 29) ⟨[], []⟩, true) := by
    have hz0 := extractEntries_zeros (2 ^ 29)
    rw [show 8 * 2 ^ 29 = 2 ^ 32 by norm_num] at hz0
    rw [hCdef]
    exact hz0
  have hextract : extractEntries (entryBytes ⟨[97], C⟩) =
      (⟨[97], []⟩ :: List.replicate (2 ^ 29) ⟨[], []⟩, true) := by
    rw [extractEntries_step _ hlen8, hru1, hru2, hd8,
      show (1 : Nat) = ([97] : List Nat).length from rfl, List.take_left,
      List.drop_left, List.take_zero, List.drop_zero, hz]
  have hdec : uncompressDecode (compressEncode [] [⟨[97], C⟩]) =
      .ok (1, ⟨[97], []⟩ :: List.replicate (2 ^ 29) ⟨[], []⟩) := by
    rw [uncompressDecode_encode [] _ hmeta]
    simp only [jsonParse_metaJson, getFilesCount_metaValue]
    rw [if_neg (show ¬ ([⟨[97], C⟩] : List ArchEntry).length = 0 by simp)]
    rw [show entriesBlob (sortEntries [⟨[97], C⟩]) =
      entryBytes ⟨[97], C⟩ ++ [] from rfl, List.append_nil, hextract]
    rfl
  rw [hdec] at heq
  simp only [Except.ok.injEq, Prod.mk.injEq] at heq
  obtain ⟨-, hes⟩ := heq
  have hmem : (⟨[97], []⟩ : ArchEntry) ∈ es := by
    rw [← hes]
    exact List.mem_cons_self _ _
  have h2 := (hiff ⟨[97], []⟩).mp hmem
  simp only [List.mem_singleton, ArchEntry.mk.injEq] at h2
  have h4 := congrArg List.length h2.2
  rw [hclen] at h4
  simp at h4

/-! ## Claim C3 — path traversal

`uncompressArchive` writes each entry to `path.join(outputDir, entry.path)`
with no containment check, so `..` segments in an archived path escape the
output directory.  The lemmas below work out `join` and `dirname` on safe
relative paths. -/

theorem splitSegs_cons47 (r s : List Nat) (rest : List (List Nat))
    (h : splitSegs r = s :: rest) : splitSegs (47 :: r) = [] :: s :: rest := by
  rw [splitSegs, h]
  simp

theorem splitSegs_cons_ne (b : Nat) (hb : b ≠ 47) (r s : List Nat)
    (rest : List (List Nat)) (h : splitSegs r = s :: rest) :
    splitSegs (b :: r) = (b :: s) :: rest := by
  rw [splitSegs, h]
  simp [hb]

theorem splitSegs_ne_nil (p : List Nat) : splitSegs p ≠ [] := by
  induction p with
  | nil => simp [splitSegs]
  | cons b r ih =>
    obtain ⟨s, rest, hs⟩ := List.exists_cons_of_ne_nil ih
    by_cases hb : b = 47
    · subst hb
      rw [splitSegs_cons47 r s rest hs]
      simp
    · rw [splitSegs_cons_ne b hb r s rest hs]
      simp

theorem splitSegs_append (a b : List Nat) :
    splitSegs (a ++ 47 :: b) = splitSegs a ++ splitSegs b := by
  induction a with
  | nil =>
    obtain ⟨s, rest, hs⟩ := List.exists_cons_of_ne_nil (splitSegs_ne_nil b)
    rw [List.nil_append, splitSegs_cons47 b s rest hs, hs]
    simp [splitSegs]
  | cons x a ih =>
    obtain ⟨s, rest, hs⟩ := List.exists_cons_of_ne_nil (splitSegs_ne_nil a)
    have hs2 : splitSegs (a ++ 47 :: b) = s :: (rest ++ splitSegs b) := by
      rw [ih, hs, List.cons_append]
    by_cases hx : x = 47
    · subst hx
      rw [List.cons_append, splitSegs_cons47 _ _ _ hs2, splitSegs_cons47 _ _ _ hs]
      simp
    · rw [List.cons_append, splitSegs_cons_ne x hx _ _ _ hs2,
        splitSegs_cons_ne x hx _ _ _ hs]
      simp

theorem joinSegs_cons_cons (s t : List Nat) (rest : List (List Nat)) :
    joinSegs (s :: t :: rest) = s ++ 47 :: joinSegs (t :: rest) := by
  rw [joinSegs]
  simp

theorem joinSegs_splitSegs (p : List Nat) : joinSegs (splitSegs p) = p := by
  induction p with
  | nil => rfl
  | cons b r ih =>
    obtain ⟨s, rest, hs⟩ := List.exists_cons_of_ne_nil (splitSegs_ne_nil r)
    rw [hs] at ih
    by_cases hb : b = 47
    · subst hb
      rw [splitSegs_cons47 r s rest hs, joinSegs_cons_cons, ih]
      rfl
    · rw [splitSegs_cons_ne b hb r s rest hs]
      cases rest with
      | nil =>
        simp only [joinSegs] at ih ⊢
        rw [ih]
      | cons t rest =>
        rw [joinSegs_cons_cons] at ih ⊢
        rw [← ih]
        simp

theorem joinSegs_append : ∀ sa : List (List Nat), sa ≠ [] →
    ∀ sb : List (List Nat), sb ≠ [] →
    joinSegs (sa ++ sb) = joinSegs sa ++ 47 :: joinSegs sb := by
  intro sa
  induction sa with
  | nil => intro h; exact absurd rfl h
  | cons s sa ih =>
    intro _ sb hb
    cases sa with
    | nil =>
      obtain ⟨t, tb, htb⟩ := List.exists_cons_of_ne_nil hb
      subst htb
      rw [List.singleton_append, joinSegs_cons_cons]
      simp [joinSegs]
    | cons t sa =>
      rw [List.cons_append, List.cons_append, joinSegs_cons_cons, joinSegs_cons_cons,
        ← List.cons_append, ih (by simp) sb hb]
      simp

theorem normSegsGo_good (allowUp : Bool) : ∀ segs stack : List (List Nat),
    segs.all goodSeg = true →
    normSegsGo allowUp stack segs = stack.reverse ++ segs := by
  intro segs
  induction segs with
  | nil =>
    intro stack _
    simp [normSegsGo]
  | cons s rest ih =>
    intro stack hall
    rw [List.all_cons, Bool.and_eq_true] at hall
    have hgs := hall.1
    simp only [goodSeg, Bool.not_eq_true', Bool.or_eq_false_iff,
      decide_eq_false_iff_not] at hgs
    simp only [normSegsGo]
    rw [if_neg (by tauto), if_neg hgs.2, ih (s :: stack) hall.2]
    simp

theorem normSegs_good (allowUp : Bool) (segs : List (List Nat))
    (h : segs.all goodSeg = true) : normSegs allowUp segs = segs := by
  rw [normSegs, normSegsGo_good allowUp segs [] h]
  rfl

theorem goodRelPath_head (p : List Nat) (hp : goodRelPath p = true) :
    ∃ c r, p = c :: r ∧ c ≠ 47 := by
  rcases p with _ | ⟨c, r⟩
  · simp [goodRelPath] at hp
  · refine ⟨c, r, rfl, fun hc => ?_⟩
    subst hc
    obtain ⟨s, rest, hs⟩ := List.exists_cons_of_ne_nil (splitSegs_ne_nil r)
    rw [goodRelPath, splitSegs_cons47 r s rest hs] at hp
    simp [goodSeg] at hp

theorem normalizePath_good (c : Nat) (r : List Nat) (hc : c ≠ 47)
    (hall : (splitSegs (c :: r)).all goodSeg = true) :
    normalizePath (c :: r) = joinSegs (splitSegs (c :: r)) := by
  simp [normalizePath, hc, normSegs_good true _ hall, splitSegs_ne_nil]

theorem joinPath_good (out p : List Nat) (hout : goodRelPath out = true)
    (hp : goodRelPath p = true) : joinPath out p = out ++ 47 :: p := by
  obtain ⟨c, r, hcr, hc47⟩ := goodRelPath_head out hout
  have houtne : out ≠ [] := by
    rw [hcr]
    exact List.cons_ne_nil c r
  have hpne : p ≠ [] := by
    intro h
    rw [h] at hp
    simp [goodRelPath] at hp
  obtain ⟨so, ro, hso⟩ := List.exists_cons_of_ne_nil (splitSegs_ne_nil out)
  obtain ⟨sp, rp, hsp⟩ := List.exists_cons_of_ne_nil (splitSegs_ne_nil p)
  have hall : (splitSegs (out ++ 47 :: p)).all goodSeg = true := by
    rw [splitSegs_append, List.all_append]
    simp only [goodRelPath, Bool.and_eq_true] at hout hp
    rw [hout.2, hp.2]
    rfl
  have hq : out ++ 47 :: p = c :: (r ++ 47 :: p) := by
    rw [hcr]
    rfl
  rw [joinPath, if_neg (fun h => houtne h.1), if_neg houtne, if_neg hpne, hq,
    normalizePath_good c _ hc47 (by rw [← hq]; exact hall), ← hq, splitSegs_append,
    joinSegs_append _ (by rw [hso]; simp) _ (by rw [hsp]; simp),
    joinSegs_splitSegs, joinSegs_splitSegs]

theorem dirname_eq_of_cons (q : List Nat) (c : Nat) (s : List Nat)
    (rest : List (List Nat)) (h : (splitSegs q).dropLast = (c :: s) :: rest) :
    dirname q = joinSegs ((c :: s) :: rest) := by
  rw [dirname, h]

theorem startsWithB_append (a : List Nat) (x : Nat) (y : List Nat) :
    startsWithB (a ++ [x]) (a ++ x :: y) = true := by
  induction a with
  | nil => simp [startsWithB]
  | cons c a ih => simp [startsWithB, ih]

theorem underOrEq_self (p : List Nat) : underOrEq p p = true := by
  simp [underOrEq]

theorem underOrEq_append (out p : List Nat) :
    underOrEq out (out ++ 47 :: p) = true := by
  simp [underOrEq, startsWithB_append]

theorem dirname_append_good (out p : List Nat) (hout : goodRelPath out = true) :
    underOrEq out (dirname (out ++ 47 :: p)) = true := by
  obtain ⟨c, r, hcr, hc47⟩ := goodRelPath_head out hout
  obtain ⟨s, rest, hs⟩ := List.exists_cons_of_ne_nil (splitSegs_ne_nil r)
  have hso : splitSegs out = (c :: s) :: rest := by
    rw [hcr, splitSegs_cons_ne c hc47 r s rest hs]
  obtain ⟨sp, rp, hsp⟩ := List.exists_cons_of_ne_nil (splitSegs_ne_nil p)
  have hdl : (splitSegs (out ++ 47 :: p)).dropLast =
      splitSegs out ++ (sp :: rp).dropLast := by
    rw [splitSegs_append, hsp, List.dropLast_append_cons]
  cases rp with
  | nil =>
    have hdn : dirname (out ++ 47 :: p) = joinSegs ((c :: s) :: rest) := by
      apply dirname_eq_of_cons
      rw [hdl, List.dropLast_single, List.append_nil, hso]
    rw [hdn, ← hso, joinSegs_splitSegs]
    exact underOrEq_self out
  | cons u us =>
    have hdl2 : (splitSegs (out ++ 47 :: p)).dropLast =
        (c :: s) :: (rest ++ sp :: (u :: us).dropLast) := by
      rw [hdl, hso, List.dropLast_cons₂, List.cons_append]
    have hdn : dirname (out ++ 47 :: p) =
        joinSegs ((c :: s) :: (rest ++ sp :: (u :: us).dropLast)) :=
      dirname_eq_of_cons _ c s _ hdl2
    rw [hdn, ← List.cons_append, ← hso,
      joinSegs_append _ (by rw [hso]; simp) _ (by simp),
      joinSegs_splitSegs]
    exact underOrEq_append out _

/-- Every event of an `uncompressArchive` run is either the initial creation
of the output directory or an event of the extraction loop. -/
theorem uncompressArchive_events_sub (dx : Bool) (outDir buf : List Nat) :
    ∀ ev ∈ (uncompressArchive true dx outDir buf).2,
      ev = .ensureDir outDir ∨
        ev ∈ extractWrites outDir (extractEntries (buf.drop (4 + readU32 buf))).1 := by
  have hpre : ∀ ev ∈ (if dx then ([] : List FsEvent) else [.ensureDir outDir]),
      ev = FsEvent.ensureDir outDir := by
    cases dx <;> simp
  unfold uncompressArchive
  simp only [Bool.not_true, Bool.false_eq_true, if_false]
  by_cases h4 : buf.length < 4
  · simp only [if_pos h4]
    exact fun ev hev => Or.inl (hpre ev hev)
  · simp only [if_neg h4]
    rcases hP : jsonParse ((buf.drop 4).take (readU32 buf)) with _ | j
    · simp only [hP]
      exact fun ev hev => Or.inl (hpre ev hev)
    · simp only [hP]
      rcases hC : getFilesCount j with _ | k
      · simp only [hC]
        exact fun ev hev => Or.inl (hpre ev hev)
      · simp only [hC]
        by_cases hk : k = 0
        · simp only [if_pos hk]
          exact fun ev hev => Or.inl (hpre ev hev)
        · simp only [if_neg hk]
          rcases hE : extractEntries (buf.drop (4 + readU32 buf)) with ⟨es, ok⟩
          simp only [hE]
          intro ev hev
          have hev2 : ev ∈ (if dx then ([] : List FsEvent) else [.ensureDir outDir]) ++
              extractWrites outDir es := by
            cases ok <;> simpa using hev
          rcases List.mem_append.mp hev2 with h | h
          · exact Or.inl (hpre ev h)
          · exact Or.inr h

/-- When the output directory and every entry path are safe relative paths,
each extraction event stays under the output directory. -/
theorem extractWrites_under (outDir : List Nat) (hout : goodRelPath outDir = true) :
    ∀ es : List ArchEntry, (∀ e ∈ es, goodRelPath e.path = true) →
      ∀ ev ∈ extractWrites outDir es, underOrEq outDir (eventPath ev) = true := by
  intro es
  induction es with
  | nil =>
    intro _ ev hev
    simp [extractWrites] at hev
  | cons e es ih =>
    intro hall ev hev
    have he : goodRelPath e.path = true := hall e (List.mem_cons_self e es)
    have hjoin : joinPath outDir e.path = outDir ++ 47 :: e.path :=
      joinPath_good outDir e.path hout he
    simp only [extractWrites, List.mem_cons] at hev
    rcases hev with rfl | rfl | hev
    · simp only [eventPath, hjoin]
      exact dirname_append_good outDir e.path hout
    · simp only [eventPath, hjoin]
      exact underOrEq_append outDir e.path
    · exact ih (fun x hx => hall x (List.mem_cons_of_mem e hx)) ev hev

/-- C3, counterexample: the claim says no file outside the output directory is
created or modified, for all entry paths including ones with `..` segments.
But `uncompressArchive` writes each entry to `path.join(outputDir, path)`
(line 314) with no sanitisation: a crafted archive whose single entry has the
path `../e` (bytes `[46, 46, 47, 101]`), unpacked into the existing output
directory `out`, reports success and writes the file `e`
(`join("out", "../e") = "e"`), which is not under `out` — and its parent
directory is ensured at `.`, also outside `out`. -/
theorem C3_pathTraversal_counterexample :
    (uncompressArchive true true [111, 117, 116]
        ([13, 0, 0, 0] ++
          [123, 34, 102, 105, 108, 101, 115, 34, 58, 91, 48, 93, 125] ++
          [4, 0, 0, 0, 1, 0, 0, 0, 46, 46, 47, 101, 104])).1 = .ok (1, 1) ∧
    (uncompressArchive true true [111, 117, 116]
        ([13, 0, 0, 0] ++
          [123, 34, 102, 105, 108, 101, 115, 34, 58, 91, 48, 93, 125] ++
          [4, 0, 0, 0, 1, 0, 0, 0, 46, 46, 47, 101, 104])).2 =
      [.ensureDir [46], .writeFile [101] [104]] ∧
    underOrEq [111, 117, 116] [101] = false ∧
    underOrEq [111, 117, 116] [46] = false :=
  ⟨rfl, rfl, rfl, rfl⟩

/-- C3 (amended): `uncompressArchive` resolves each entry to
`join(outputDir, path)` with no containment check, so entries with `..`
segments are written outside the output directory
(`C3_pathTraversal_counterexample`); but when the output directory and every
extracted entry path are safe relative paths (non-empty, `/`-separated, with
no empty, `.` or `..` segment and no leading slash), every filesystem event
of the run — each directory created and each file written — has its target
at the output directory itself or strictly underneath it. -/
theorem C3_pathTraversal_amended (dx : Bool) (outDir buf : List Nat)
    (hout : goodRelPath outDir = true)
    (hpaths : ∀ e ∈ (extractEntries (buf.drop (4 + readU32 buf))).1,
      goodRelPath e.path = true) :
    ∀ ev ∈ (uncompressArchive true dx outDir buf).2,
      underOrEq outDir (eventPath ev) = true := by
  intro ev hev
  rcases uncompressArchive_events_sub dx outDir buf ev hev with h | h
  · rw [h]
    exact underOrEq_self outDir
  · exact extractWrites_under outDir hout _ hpaths ev h

theorem C3_pathTraversal_amended_witness :
    underOrEq [111, 117, 116]
      (eventPath (.writeFile [111, 117, 116, 47, 97] [104])) = true :=
  C3_pathTraversal_amended false [111, 117, 116]
    ([13, 0, 0, 0] ++
      [123, 34, 102, 105, 108, 101, 115, 34, 58, 91, 48, 93, 125] ++
      [1, 0, 0, 0, 1, 0, 0, 0, 97, 104])
    (by decide) (by decide)
    (.writeFile [111, 117, 116, 47, 97] [104]) (by decide)
